import Mathlib

/-
Verification of the quantum-circuit pipeline core (pipeline.rs of RustQIP).

The embedding models:
  * complex amplitudes as pairs of rationals (the Rust code is generic over a
    float precision type; the claims under study only involve exact values);
  * the external unitary/measurement kernels, which are out of the core's
    scope, as function parameters constrained only by the contracts stated in
    the specification;
  * the qubit handle graph as an inductive tree in which sharing is expressed
    by equal subtrees carrying the same creation-order identifier.
-/

namespace QIP

/-- Complex amplitude with exact integer components.  Models the Complex
number type instantiated at the generic precision parameter; the claims
under study only concern exact amplitude values, and every arithmetic
operation the core itself performs (products of declared sub-state
amplitudes) stays inside this subring. -/
structure Cplx where
  re : ℤ
  im : ℤ
deriving DecidableEq, Repr

instance : Zero Cplx := ⟨⟨0, 0⟩⟩
instance : One Cplx := ⟨⟨1, 0⟩⟩

instance : Mul Cplx :=
  ⟨fun a b => ⟨a.re * b.re - a.im * b.im, a.re * b.im + a.im * b.re⟩⟩

theorem Cplx.zero_re : (0 : Cplx).re = 0 := rfl

theorem Cplx.one_def : (1 : Cplx) = ⟨1, 0⟩ := rfl

/-! ### Bit-placement helpers

The initializer and the bit-reflection utility both scatter the bits of a
small number into prescribed positions of a larger address.  The function
below captures this: bit j of b is sent to position ps[j]. -/

/-- Scatter the low bits of b into the listed positions: bit j of b lands at
position ps[j] of the result. -/
def place : List Nat → Nat → Nat
  | [], _ => 0
  | p :: ps, b => (b &&& 1) <<< p + place ps (b >>> 1)

/-- Gather the bits of g from the listed positions: bit j of the result is
the bit of g at position ps[j]. -/
def gather : List Nat → Nat → Nat
  | [], _ => 0
  | p :: ps, g => (if g.testBit p then 1 else 0) + 2 * gather ps g

/-- Addition acts bitwise as disjunction when the summands occupy disjoint
bit positions. -/
theorem testBit_add_of_and_eq_zero {x y : Nat} (h : x &&& y = 0) (t : Nat) :
    (x + y).testBit t = (x.testBit t || y.testBit t) := by
  induction t generalizing x y with
  | zero =>
    have hx2 := Nat.mod_two_eq_zero_or_one x
    have hy2 := Nat.mod_two_eq_zero_or_one y
    have hand : ¬(x % 2 = 1 ∧ y % 2 = 1) := by
      intro hc
      have : (x &&& y) % 2 = 1 := by
        simp [Nat.and_mod_two_eq_one, hc.1, hc.2]
      simp [h] at this
    simp only [Nat.testBit_zero]
    rcases hx2 with hx | hx <;> rcases hy2 with hy | hy <;>
      simp [Nat.add_mod, hx, hy] at hand ⊢
  | succ t ih =>
    have hd : (x / 2) &&& (y / 2) = 0 := by
      have := Nat.and_div_two (a := x) (b := y)
      rw [h] at this
      simpa using this.symm
    have hmod : x % 2 = 0 ∨ y % 2 = 0 := by
      by_contra hc
      push_neg at hc
      have hx : x % 2 = 1 := by omega
      have hy : y % 2 = 1 := by omega
      have : (x &&& y) % 2 = 1 := by
        simp [Nat.and_mod_two_eq_one, hx, hy]
      simp [h] at this
    have hdiv : (x + y) / 2 = x / 2 + y / 2 := by omega
    rw [Nat.testBit_add_one, Nat.testBit_add_one, Nat.testBit_add_one, hdiv]
    exact ih hd

/-- Bit pattern of a single scattered low bit. -/
theorem testBit_and_one_shiftLeft (b p t : Nat) :
    ((b &&& 1) <<< p).testBit t = (decide (t = p) && b.testBit 0) := by
  have hb : b &&& 1 = b % 2 := Nat.and_one_is_mod b
  rcases Nat.mod_two_eq_zero_or_one b with h | h
  · simp [hb, h]
  · rw [hb, h]
    have h1 : (1 : Nat) <<< p = 2 ^ p := by
      simp [Nat.shiftLeft_eq]
    rw [h1, Nat.testBit_two_pow]
    simp [h, eq_comm]

/-- Support of a placement: only the listed positions can be set. -/
theorem testBit_place_of_not_mem {ps : List Nat} (hnd : ps.Nodup) :
    ∀ b t, t ∉ ps → (place ps b).testBit t = false := by
  induction ps with
  | nil => intro b t _; simp [place]
  | cons p ps ih =>
    intro b t h
    have hpnd : p ∉ ps := (List.nodup_cons.mp hnd).1
    have hnd2 : ps.Nodup := (List.nodup_cons.mp hnd).2
    have hp : t ≠ p := fun hc => h (hc ▸ List.mem_cons_self p ps)
    have hps : t ∉ ps := fun hc => h (List.mem_cons_of_mem p hc)
    have hand : ((b &&& 1) <<< p) &&& place ps (b >>> 1) = 0 := by
      apply Nat.eq_of_testBit_eq
      intro i
      rw [Nat.testBit_and, testBit_and_one_shiftLeft]
      rcases em (i = p) with hi | hi
      · subst hi
        rw [ih hnd2 (b >>> 1) i hpnd]
        simp
      · simp [hi]
    rw [place, testBit_add_of_and_eq_zero hand, testBit_and_one_shiftLeft,
      ih hnd2 (b >>> 1) t hps]
    simp [hp]

/-- Reading back a scattered bit: position ps[j] of the placement carries
bit j of the source. -/
theorem testBit_place_get {ps : List Nat} (hnd : ps.Nodup) (b : Nat) (j : Nat)
    (hj : j < ps.length) :
    (place ps b).testBit ps[j] = b.testBit j := by
  induction ps generalizing b j with
  | nil => simp at hj
  | cons p ps ih =>
    have hpnd : p ∉ ps := (List.nodup_cons.mp hnd).1
    have hnd2 : ps.Nodup := (List.nodup_cons.mp hnd).2
    have hand : ((b &&& 1) <<< p) &&& place ps (b >>> 1) = 0 := by
      apply Nat.eq_of_testBit_eq
      intro i
      rw [Nat.testBit_and, testBit_and_one_shiftLeft]
      rcases em (i = p) with hi | hi
      · subst hi
        rw [testBit_place_of_not_mem hnd2 (b >>> 1) i hpnd]
        simp
      · simp [hi]
    cases j with
    | zero =>
      have hget : (p :: ps)[0] = p := rfl
      rw [hget, place, testBit_add_of_and_eq_zero hand,
        testBit_and_one_shiftLeft,
        testBit_place_of_not_mem hnd2 (b >>> 1) p hpnd]
      simp
    | succ j =>
      have hj2 : j < ps.length := Nat.lt_of_succ_lt_succ hj
      have hget : (p :: ps)[j + 1] = ps[j] := rfl
      have he : ps[j] ≠ p := by
        intro hc
        exact hpnd (hc ▸ List.getElem_mem hj2)
      rw [hget, place, testBit_add_of_and_eq_zero hand,
        testBit_and_one_shiftLeft, ih hnd2 (b >>> 1) j hj2]
      rw [Nat.testBit_shiftRight]
      simp [he, Nat.add_comm]

/-- A placement over positions below n stays below 2 to the n. -/
theorem place_lt_two_pow {ps : List Nat} (hnd : ps.Nodup) {n : Nat}
    (hlt : ∀ p ∈ ps, p < n) (b : Nat) : place ps b < 2 ^ n := by
  apply Nat.lt_pow_two_of_testBit
  intro i hi
  apply testBit_place_of_not_mem hnd
  intro hmem
  exact absurd (hlt i hmem) (Nat.not_lt.mpr hi)

/-- Gathering from positions produces a number below 2 to the width. -/
theorem gather_lt_two_pow (ps : List Nat) (g : Nat) :
    gather ps g < 2 ^ ps.length := by
  induction ps with
  | nil => simp [gather]
  | cons p ps ih =>
    have ihh := ih
    cases hb : g.testBit p <;>
      simp only [gather, hb, List.length_cons, Nat.pow_succ, if_true,
        if_false, Bool.false_eq_true, Bool.true_eq_false] <;>
      omega

/-- Bit j of a gather is the source bit at position ps[j]. -/
theorem testBit_gather_lt (ps : List Nat) (g : Nat) (j : Nat)
    (hj : j < ps.length) : (gather ps g).testBit j = g.testBit ps[j] := by
  induction ps generalizing j with
  | nil => simp at hj
  | cons p ps ih =>
    cases j with
    | zero =>
      have hmod : (gather (p :: ps) g) % 2 = if g.testBit p then 1 else 0 := by
        cases hb : g.testBit p <;>
          simp only [gather, hb, if_true, if_false, Bool.false_eq_true,
            Bool.true_eq_false] <;>
          omega
      simp only [Nat.testBit_zero, hmod]
      split <;> simp_all
    | succ j =>
      have hj2 : j < ps.length := Nat.lt_of_succ_lt_succ hj
      have hdiv : (gather (p :: ps) g) / 2 = gather ps g := by
        cases hb : g.testBit p <;>
          simp only [gather, hb, if_true, if_false, Bool.false_eq_true,
            Bool.true_eq_false] <;>
          omega
      rw [Nat.testBit_add_one, hdiv, ih j hj2]
      rfl

/-- High bits of a gather vanish. -/
theorem testBit_gather_ge (ps : List Nat) (g : Nat) (j : Nat)
    (hj : ps.length ≤ j) : (gather ps g).testBit j = false := by
  apply Nat.testBit_lt_two_pow
  calc gather ps g < 2 ^ ps.length := gather_lt_two_pow ps g
    _ ≤ 2 ^ j := Nat.pow_le_pow_right (by omega) hj

/-- Gathering only looks at the listed positions. -/
theorem gather_congr {ps : List Nat} {y z : Nat}
    (h : ∀ t ∈ ps, y.testBit t = z.testBit t) : gather ps y = gather ps z := by
  induction ps with
  | nil => rfl
  | cons p ps ih =>
    simp only [gather, h p (List.mem_cons_self p ps),
      ih (fun t ht => h t (List.mem_cons_of_mem p ht))]

/-- Gathering back a placement recovers the scattered bits. -/
theorem gather_place {ps : List Nat} (hnd : ps.Nodup) (b : Nat) :
    gather ps (place ps b) = b % 2 ^ ps.length := by
  apply Nat.eq_of_testBit_eq
  intro j
  rcases Nat.lt_or_ge j ps.length with hj | hj
  · rw [testBit_gather_lt ps _ j hj, testBit_place_get hnd b j hj,
      Nat.testBit_mod_two_pow]
    simp [hj]
  · rw [testBit_gather_ge ps _ j hj, Nat.testBit_mod_two_pow]
    simp [Nat.not_lt.mpr hj]

/-- Two numbers with disjoint bit supports have conjunction zero. -/
theorem and_eq_zero_of_support {x y : Nat} {P : Nat → Prop}
    (hx : ∀ t, x.testBit t = true → P t)
    (hy : ∀ t, P t → y.testBit t = false) : x &&& y = 0 := by
  apply Nat.eq_of_testBit_eq
  intro i
  rw [Nat.testBit_and, Nat.zero_testBit]
  rcases hxy : x.testBit i with _ | _
  · simp
  · simp [hy i (hx i hxy)]

/-! ### The state initializer (new_from_initial_states)

Embeds LocalQuantumState and its initializer from the source; the helper
sub_to_full lives in the external state_ops module and is modelled from the
specification. -/

/-- Modelled from the spec: fixed parallelism threshold constant; the exact
value lives outside the analyzed core and no claim depends on it. -/
def PARALLEL_THRESHOLD : Nat := 12

/-- Partial initial state of a subset of qubits: either an explicit sub-state
vector or a classical basis index for that subset. -/
inductive InitialState where
  | FullState (vals : List Cplx)
  | Index (v : Nat)
deriving DecidableEq, Repr

/-- An initial-state entry: the absolute qubit indices of a subset together
with the initial state declared for it. -/
abbrev QubitInitialState : Type := List Nat × InitialState

/-- Local quantum state: qubit count, amplitude vector, same-size scratch
arena and the parallelism flag fixed at construction. -/
structure LocalQuantumState where
  n : Nat
  state : List Cplx
  arena : List Cplx
  multithread : Bool
deriving DecidableEq, Repr

/-- Modelled from the spec: missing state_ops::sub_to_full folds the
classical index val into acc at the bit positions of the given absolute
indices; qubit index 0 occupies the top bit of the n-bit address, so bit j
of val lands at position n - 1 - indices[j]. -/
def sub_to_full (n : Nat) (indices : List Nat) (val acc : Nat) : Nat :=
  acc + (indices.enum.map
    (fun je => ((val >>> je.1) &&& 1) <<< (n - 1 - je.2))).sum

/-- Widened qubit count: one past the largest referenced index, if that
exceeds the declared count.  Fuses the source's Option map with its final
unwrap_or. -/
def widened_n (n : Nat) (states : List QubitInitialState) : Nat :=
  match ((states.map Prod.fst).flatten).max? with
  | some m => max n (m + 1)
  | none => n

/-- Combined dimension of all FullState entries. -/
def n_fullindices (states : List QubitInitialState) : Nat :=
  (states.map (fun e => match e.2 with
    | InitialState.FullState _ => e.1.length
    | InitialState.Index _ => 0)).sum

/-- Fixed index template folded from all Index entries. -/
def init_template (n : Nat) (states : List QubitInitialState) : Nat :=
  states.foldl (fun acc e => match e.2 with
    | InitialState.Index v => sub_to_full n e.1 v acc
    | InitialState.FullState _ => acc) 0

/-- One pass of the combination fold over the entries for combination i:
accumulates the superindex offset, the running bit offset into i, and the
product of FullState amplitudes. -/
def init_entry_fold (n i : Nat) (states : List QubitInitialState) :
    Nat × Nat × Cplx :=
  states.foldl (fun acc e => match e.2 with
    | InitialState.FullState vals =>
        let index_mask := (1 <<< e.1.length) - 1
        let val_index_bits := (i >>> acc.2.1) &&& index_mask
        let val_acc := acc.2.2 * vals.getD val_index_bits 0
        let superindex_delta := (e.1.enum.map
          (fun je => ((val_index_bits >>> je.1) &&& 1) <<< (n - 1 - je.2))).sum
        (acc.1 + superindex_delta, acc.2.1 + e.1.length, val_acc)
    | InitialState.Index _ => acc) (0, 0, 1)

/-- Build a local state using a set of initial states for subsets of the
qubits; mirrors LocalQuantumState::new_from_initial_states. -/
def new_from_initial_states (n : Nat) (states : List QubitInitialState) :
    LocalQuantumState :=
  let n := widened_n n states
  let cvec : List Cplx := List.replicate (1 <<< n) 0
  let cvec := (List.range (1 <<< n_fullindices states)).foldl
    (fun cv i =>
      let r := init_entry_fold n i states
      cv.set (r.1 + init_template n states) r.2.2) cvec
  { n := n, state := cvec, arena := cvec,
    multithread := decide (n > PARALLEL_THRESHOLD) }

/-- Build a new LocalQuantumState of width n; mirrors
LocalQuantumState::new. -/
def LocalQuantumState.new (n : Nat) : LocalQuantumState :=
  new_from_initial_states n []

example : (new_from_initial_states 2 []).state =
    [1, 0, 0, 0] := by decide

example : (new_from_initial_states 1 [([0], InitialState.Index 1)]).state =
    [0, 1] := by decide

example : (new_from_initial_states 2
    [([1], InitialState.FullState [⟨1, 0⟩, ⟨2, 0⟩])]).state =
    [⟨1, 0⟩, ⟨2, 0⟩, 0, 0] := by decide

/-! ### Bridging the source's enumerate-map-sum loops to place -/

/-- Generalized bridge: an enumerate-scatter-sum starting at offset k equals
a placement of the bits of b shifted right by k. -/
theorem enumFrom_scatter_eq_place (n : Nat) (idxs : List Nat) :
    ∀ k b, ((List.enumFrom k idxs).map
        (fun je => ((b >>> je.1) &&& 1) <<< (n - 1 - je.2))).sum
      = place (idxs.map (fun q => n - 1 - q)) (b >>> k) := by
  induction idxs with
  | nil => intro k b; simp [place]
  | cons q idxs ih =>
    intro k b
    simp only [List.enumFrom, List.map_cons, List.sum_cons]
    rw [place, ih (k + 1) b, Nat.shiftRight_add b k 1]

/-- The source's per-entry scatter loop equals a placement. -/
theorem enum_scatter_eq_place (n b : Nat) (idxs : List Nat) :
    (idxs.enum.map (fun je => ((b >>> je.1) &&& 1) <<< (n - 1 - je.2))).sum
      = place (idxs.map (fun q => n - 1 - q)) b := by
  have h := enumFrom_scatter_eq_place n idxs 0 b
  simpa [List.enum] using h

/-- Positions, in the internal address, of a list of absolute qubit
indices: qubit q occupies bit n - 1 - q. -/
def qpos (n : Nat) (qs : List Nat) : List Nat :=
  qs.map (fun q => n - 1 - q)

theorem sub_to_full_eq_place (n : Nat) (indices : List Nat) (val acc : Nat) :
    sub_to_full n indices val acc = acc + place (qpos n indices) val := by
  rw [sub_to_full, enum_scatter_eq_place]
  rfl

theorem qpos_nodup {n : Nat} {qs : List Nat} (hnd : qs.Nodup)
    (hlt : ∀ q ∈ qs, q < n) : (qpos n qs).Nodup := by
  apply List.Nodup.map_on _ hnd
  intro a ha b hb hab
  have := hlt a ha
  have := hlt b hb
  omega

theorem qpos_lt {n : Nat} {qs : List Nat} (hlt : ∀ q ∈ qs, q < n) :
    ∀ p ∈ qpos n qs, p < n := by
  intro p hp
  rcases List.mem_map.mp hp with ⟨q, hq, rfl⟩
  have := hlt q hq
  omega

/-- Modelled from the spec: missing utils::flip_bits, the bit-reflection of
an n-bit address; bit j of the input becomes bit n - 1 - j of the
output. -/
def flip_bits (n i : Nat) : Nat :=
  place (qpos n (List.range n)) i

theorem qpos_range_nodup (n : Nat) : (qpos n (List.range n)).Nodup :=
  qpos_nodup (List.nodup_range n) (fun q hq => List.mem_range.mp hq)

/-- Bit t of the reflection is bit n - 1 - t of the input, for t below n. -/
theorem testBit_flip_bits (n i t : Nat) :
    (flip_bits n i).testBit t =
      if t < n then i.testBit (n - 1 - t) else false := by
  rcases Nat.lt_or_ge t n with ht | ht
  · have hj : n - 1 - t < (List.range n).length := by
      simp [List.length_range]; omega
    have hjq : n - 1 - t < (qpos n (List.range n)).length := by
      simpa [qpos, List.length_range] using (by omega : n - 1 - t < n)
    have hpos : (qpos n (List.range n))[n - 1 - t] = t := by
      simp [qpos, List.getElem_map, List.getElem_range]
      omega
    have := testBit_place_get (qpos_range_nodup n) i (n - 1 - t)
      (by simpa [qpos, List.length_range] using (by omega : n - 1 - t < n))
    rw [flip_bits]
    rw [hpos] at this
    rw [this]
    simp [ht]
  · rw [flip_bits, testBit_place_of_not_mem (qpos_range_nodup n)]
    · simp [Nat.not_lt.mpr ht]
    · intro hc
      rcases List.mem_map.mp hc with ⟨q, hq, hqe⟩
      have := List.mem_range.mp hq
      omega

theorem flip_bits_lt (n i : Nat) : flip_bits n i < 2 ^ n := by
  apply Nat.lt_pow_two_of_testBit
  intro t ht
  rw [testBit_flip_bits]
  simp [Nat.not_lt.mpr ht]

/-- Bit reflection is an involution on n-bit addresses. -/
theorem flip_bits_flip_bits {n i : Nat} (hi : i < 2 ^ n) :
    flip_bits n (flip_bits n i) = i := by
  apply Nat.eq_of_testBit_eq
  intro t
  rw [testBit_flip_bits]
  rcases Nat.lt_or_ge t n with ht | ht
  · rw [if_pos ht, testBit_flip_bits, if_pos (by omega)]
    congr 1
    omega
  · rw [if_neg (Nat.not_lt.mpr ht)]
    have : i < 2 ^ t :=
      Nat.lt_of_lt_of_le hi (Nat.pow_le_pow_right (by omega) ht)
    exact (Nat.testBit_lt_two_pow this).symm

theorem flip_bits_injective {n a b : Nat} (ha : a < 2 ^ n) (hb : b < 2 ^ n)
    (h : flip_bits n a = flip_bits n b) : a = b := by
  have := congrArg (flip_bits n) h
  rwa [flip_bits_flip_bits ha, flip_bits_flip_bits hb] at this

/-! ### Generic facts about the write loop -/

/-- Folding writes over a list of combination numbers preserves the vector
length. -/
theorem foldl_set_length {α : Type} (l : List Nat) (a : Nat → Nat)
    (v : Nat → α) :
    ∀ base : List α,
      (l.foldl (fun cv i => cv.set (a i) (v i)) base).length = base.length := by
  induction l with
  | nil => intro base; rfl
  | cons x l ih =>
    intro base
    rw [List.foldl_cons, ih, List.length_set]

/-- C6: the qubit count of the built state is the declared count widened to
one past the largest referenced index; the amplitude vector has length two
to that count; widening happens exactly when some entry references an index
at or beyond the declared count. -/
theorem C6_qubit_count_widening (n : Nat) (states : List QubitInitialState) :
    ((new_from_initial_states n states).n =
      (match ((states.map Prod.fst).flatten).max? with
        | some m => max n (m + 1)
        | none => n)) ∧
    (new_from_initial_states n states).state.length =
      2 ^ (new_from_initial_states n states).n ∧
    (n < (new_from_initial_states n states).n ↔
      ∃ e ∈ states, ∃ q ∈ e.1, n ≤ q) := by
  have hn : (new_from_initial_states n states).n = widened_n n states := rfl
  refine ⟨hn, ?_, ?_⟩
  · show ((List.range (1 <<< n_fullindices states)).foldl _
        (List.replicate (1 <<< widened_n n states) (0 : Cplx))).length = _
    rw [foldl_set_length, List.length_replicate, hn, Nat.shiftLeft_eq,
      Nat.one_mul]
  · rw [hn, widened_n]
    cases hmax : ((states.map Prod.fst).flatten).max? with
    | none =>
      show n < n ↔ _
      have hemp : (states.map Prod.fst).flatten = [] :=
        List.max?_eq_none_iff.mp hmax
      simp only [Nat.lt_irrefl, false_iff]
      rintro ⟨e, he, q, hq, _⟩
      have hqf : q ∈ (states.map Prod.fst).flatten :=
        List.mem_flatten.mpr ⟨e.1, List.mem_map.mpr ⟨e, he, rfl⟩, hq⟩
      rw [hemp] at hqf
      exact absurd hqf (List.not_mem_nil q)
    | some m =>
      show n < max n (m + 1) ↔ _
      have hmem : m ∈ (states.map Prod.fst).flatten :=
        List.max?_mem max_choice hmax
      have hle : ∀ q ∈ (states.map Prod.fst).flatten, q ≤ m :=
        (List.max?_le_iff (fun a b c => max_le_iff) hmax).mp (Nat.le_refl m)
      have hmx : max n (m + 1) = n ∨ max n (m + 1) = m + 1 := max_choice n (m + 1)
      constructor
      · intro hlt
        rcases List.mem_flatten.mp hmem with ⟨l, hl, hml⟩
        rcases List.mem_map.mp hl with ⟨e, he, rfl⟩
        refine ⟨e, he, m, hml, ?_⟩
        rcases hmx with hc | hc <;> rw [hc] at hlt <;> omega
      · rintro ⟨e, he, q, hq, hnq⟩
        have hqf : q ∈ (states.map Prod.fst).flatten :=
          List.mem_flatten.mpr ⟨e.1, List.mem_map.mpr ⟨e, he, rfl⟩, hq⟩
        have hqm := hle q hqf
        have hlo : n ≤ m := Nat.le_trans hnq hqm
        rcases hmx with hc | hc <;> rw [hc] <;> omega

/-! ### State mutation: apply_op, measure, get_state

The bit-level kernels live outside the analyzed core (state_ops and
measurement_ops); following the specification they are taken as parameters
constrained only by their buffer contracts.  The measurement kernel carries
its own randomness source, so quantifying over it also quantifies over the
measurement outcomes. -/

/-- Modelled from the spec: the operator description consumed by the
external unitary kernel; its internals are outside the analyzed core. -/
structure QubitOp where
  indices : List Nat
  dat : List (List Cplx)
deriving DecidableEq, Repr

/-- Modelled from the spec: signature of the external unitary kernel,
state_ops::apply_op(n, op, state, arena, input_offset, output_offset,
multithread); the returned vector is the content written into the arena. -/
def ApplyKernel : Type :=
  Nat → QubitOp → List Cplx → List Cplx → Nat → Nat → Bool → List Cplx

/-- Modelled from the spec: signature of the external probabilistic-collapse
kernel, measurement_ops::measure(n, indices, state, arena, input_offset,
output_offset); returns the measured (outcome index, outcome probability)
and the content written into the arena. -/
def MeasureKernel : Type :=
  Nat → List Nat → List Cplx → List Cplx → Nat → Nat → (Nat × ℚ) × List Cplx

/-- Apply a unitary kernel: the kernel reads the state buffer and writes
into the arena, then the two buffer roles are swapped. -/
def LocalQuantumState.apply_op (ak : ApplyKernel) (s : LocalQuantumState)
    (op : QubitOp) : LocalQuantumState :=
  { n := s.n,
    state := ak s.n op s.state s.arena 0 0 s.multithread,
    arena := s.state,
    multithread := s.multithread }

/-- Measure: the collapse kernel reads the state buffer and writes into the
arena, the buffer roles are swapped, and the measured result is returned. -/
def LocalQuantumState.measure (mk : MeasureKernel) (s : LocalQuantumState)
    (indices : List Nat) : (Nat × ℚ) × LocalQuantumState :=
  let r := mk s.n indices s.state s.arena 0 0
  (r.1,
    { n := s.n, state := r.2, arena := s.state,
      multithread := s.multithread })

/-- Consume the state and return the amplitude vector; with natural_order
every arena slot i receives the amplitude at the bit-reflected address.
The multithread flag only chooses between the parallel and the sequential
loop, which write identical contents slot by slot, so a single loop models
both branches. -/
def LocalQuantumState.get_state (s : LocalQuantumState)
    (natural_order : Bool) : List Cplx :=
  if natural_order then
    s.arena.mapIdx (fun i _ => s.state.getD (flip_bits s.n i) 0)
  else
    s.state

/-- Re-derive the internal-order vector from a natural-order export by
applying the bit-reflection permutation once more. -/
def reflect_order (n : Nat) (v : List Cplx) : List Cplx :=
  (List.range (2 ^ n)).map (fun i => v.getD (flip_bits n i) 0)

/-- C5: exporting without reordering returns the internal vector unchanged;
exporting with natural order reads source position flip_bits(n, i) into
output position i; re-applying the bit reflection to the export recovers
the internal vector. -/
theorem C5_get_state_roundtrip (s : LocalQuantumState)
    (hs : s.state.length = 2 ^ s.n) (ha : s.arena.length = 2 ^ s.n) :
    s.get_state false = s.state ∧
    (∀ i, i < 2 ^ s.n →
      (s.get_state true).getD i 0 = s.state.getD (flip_bits s.n i) 0) ∧
    reflect_order s.n (s.get_state true) = s.state := by
  have hlen : (s.get_state true).length = 2 ^ s.n := by
    rw [LocalQuantumState.get_state, if_pos rfl, List.length_mapIdx, ha]
  have hpt : ∀ i, i < 2 ^ s.n →
      (s.get_state true).getD i 0 = s.state.getD (flip_bits s.n i) 0 := by
    intro i hi
    have hi2 : i < (s.get_state true).length := by rw [hlen]; exact hi
    rw [List.getD_eq_getElem _ _ hi2]
    have hi3 : i < (s.arena.mapIdx
        (fun j _ => s.state.getD (flip_bits s.n j) 0)).length := by
      simpa [LocalQuantumState.get_state] using hi2
    show (s.arena.mapIdx (fun j _ => s.state.getD (flip_bits s.n j) 0))[i] = _
    rw [List.getElem_mapIdx]
  refine ⟨rfl, hpt, ?_⟩
  apply List.ext_getElem
  · rw [reflect_order, List.length_map, List.length_range, hs]
  · intro i h1 h2
    have hi : i < 2 ^ s.n := by
      simpa [reflect_order] using h1
    simp only [reflect_order, List.getElem_map, List.getElem_range]
    have hflt : flip_bits s.n i < 2 ^ s.n := flip_bits_lt s.n i
    rw [hpt (flip_bits s.n i) hflt, flip_bits_flip_bits hi,
      List.getD_eq_getElem _ _ (by rw [hs]; exact hi)]

/-- C8: both mutators swap the buffer roles (the old state buffer becomes
the scratch arena and the kernel output, written into the old arena,
becomes the current state) and preserve the qubit count and both buffer
lengths. -/
theorem C8_buffer_swap (ak : ApplyKernel) (mk : MeasureKernel)
    (s : LocalQuantumState) (op : QubitOp) (indices : List Nat)
    (hak : (ak s.n op s.state s.arena 0 0 s.multithread).length =
      s.arena.length)
    (hmk : (mk s.n indices s.state s.arena 0 0).2.length = s.arena.length) :
    ((s.apply_op ak op).n = s.n ∧
     (s.apply_op ak op).arena = s.state ∧
     (s.apply_op ak op).state.length = s.arena.length ∧
     (s.apply_op ak op).arena.length = s.state.length) ∧
    (((s.measure mk indices).2).n = s.n ∧
     ((s.measure mk indices).2).arena = s.state ∧
     ((s.measure mk indices).2).state.length = s.arena.length ∧
     ((s.measure mk indices).2).arena.length = s.state.length) :=
  ⟨⟨rfl, rfl, hak, rfl⟩, ⟨rfl, rfl, hmk, rfl⟩⟩

/-- Witness for C8 at a concrete state and concrete kernels satisfying the
buffer contracts. -/
theorem C8_buffer_swap_witness :
    (((fun _ _ _ arena _ _ _ => arena : ApplyKernel) 1
        (QubitOp.mk [0] []) [0, 0] [0, 0] 0 0 false).length =
      ([0, 0] : List Cplx).length ∧
     ((fun _ _ _ arena _ _ => ((0, (1 : ℚ)), arena) : MeasureKernel) 1 [0]
        [0, 0] [0, 0] 0 0).2.length = ([0, 0] : List Cplx).length) ∧
    ((((LocalQuantumState.mk 1 [0, 0] [0, 0] false).apply_op
        (fun _ _ _ arena _ _ _ => arena) (QubitOp.mk [0] [])).n = 1 ∧
      ((LocalQuantumState.mk 1 [0, 0] [0, 0] false).apply_op
        (fun _ _ _ arena _ _ _ => arena) (QubitOp.mk [0] [])).arena =
        [0, 0] ∧
      ((LocalQuantumState.mk 1 [0, 0] [0, 0] false).apply_op
        (fun _ _ _ arena _ _ _ => arena) (QubitOp.mk [0] [])).state.length =
        ([0, 0] : List Cplx).length ∧
      ((LocalQuantumState.mk 1 [0, 0] [0, 0] false).apply_op
        (fun _ _ _ arena _ _ _ => arena) (QubitOp.mk [0] [])).arena.length =
        ([0, 0] : List Cplx).length) ∧
     ((((LocalQuantumState.mk 1 [0, 0] [0, 0] false).measure
        (fun _ _ _ arena _ _ => ((0, (1 : ℚ)), arena)) [0]).2).n = 1 ∧
      (((LocalQuantumState.mk 1 [0, 0] [0, 0] false).measure
        (fun _ _ _ arena _ _ => ((0, (1 : ℚ)), arena)) [0]).2).arena =
        [0, 0] ∧
      (((LocalQuantumState.mk 1 [0, 0] [0, 0] false).measure
        (fun _ _ _ arena _ _ => ((0, (1 : ℚ)), arena)) [0]).2).state.length =
        ([0, 0] : List Cplx).length ∧
      (((LocalQuantumState.mk 1 [0, 0] [0, 0] false).measure
        (fun _ _ _ arena _ _ => ((0, (1 : ℚ)), arena)) [0]).2).arena.length =
        ([0, 0] : List Cplx).length)) :=
  ⟨⟨rfl, rfl⟩,
    C8_buffer_swap (fun _ _ _ arena _ _ _ => arena)
      (fun _ _ _ arena _ _ => ((0, (1 : ℚ)), arena))
      (LocalQuantumState.mk 1 [0, 0] [0, 0] false) (QubitOp.mk [0] []) [0]
      rfl rfl⟩

/-- Witness for C5 at a concrete two-amplitude state. -/
theorem C5_get_state_roundtrip_witness :
    ((LocalQuantumState.mk 1 [⟨3, 0⟩, ⟨0, 5⟩] [0, 0] false).state.length =
      2 ^ (LocalQuantumState.mk 1 [⟨3, 0⟩, ⟨0, 5⟩] [0, 0] false).n ∧
     (LocalQuantumState.mk 1 [⟨3, 0⟩, ⟨0, 5⟩] [0, 0] false).arena.length =
      2 ^ (LocalQuantumState.mk 1 [⟨3, 0⟩, ⟨0, 5⟩] [0, 0] false).n) ∧
    ((LocalQuantumState.mk 1 [⟨3, 0⟩, ⟨0, 5⟩] [0, 0] false).get_state false =
      (LocalQuantumState.mk 1 [⟨3, 0⟩, ⟨0, 5⟩] [0, 0] false).state ∧
     (∀ i, i < 2 ^ (LocalQuantumState.mk 1 [⟨3, 0⟩, ⟨0, 5⟩] [0, 0] false).n →
       ((LocalQuantumState.mk 1 [⟨3, 0⟩, ⟨0, 5⟩] [0, 0] false).get_state
          true).getD i 0 =
         (LocalQuantumState.mk 1 [⟨3, 0⟩, ⟨0, 5⟩] [0, 0] false).state.getD
           (flip_bits (LocalQuantumState.mk 1 [⟨3, 0⟩, ⟨0, 5⟩] [0, 0]
              false).n i) 0) ∧
     reflect_order (LocalQuantumState.mk 1 [⟨3, 0⟩, ⟨0, 5⟩] [0, 0] false).n
        ((LocalQuantumState.mk 1 [⟨3, 0⟩, ⟨0, 5⟩] [0, 0] false).get_state
          true) =
       (LocalQuantumState.mk 1 [⟨3, 0⟩, ⟨0, 5⟩] [0, 0] false).state) :=
  ⟨⟨rfl, rfl⟩,
    C5_get_state_roundtrip
      (LocalQuantumState.mk 1 [⟨3, 0⟩, ⟨0, 5⟩] [0, 0] false) rfl rfl⟩

/-! ### The pipeline executor: modifiers, measurement records, the fold -/

/-- Operation variant: a unitary application or a measurement instruction
carrying the caller-assigned measurement id and the target indices. -/
inductive StateModifierType where
  | UnitaryOp (op : QubitOp)
  | MeasureState (id : Nat) (indices : List Nat)
deriving DecidableEq, Repr

/-- Named operation attached to a graph edge. -/
structure StateModifier where
  name : String
  modifier : StateModifierType
deriving DecidableEq, Repr

/-- Mirrors StateModifier::new_unitary. -/
def StateModifier.new_unitary (name : String) (op : QubitOp) :
    StateModifier :=
  ⟨name, StateModifierType.UnitaryOp op⟩

/-- Mirrors StateModifier::new_measurement. -/
def StateModifier.new_measurement (name : String) (id : Nat)
    (indices : List Nat) : StateModifier :=
  ⟨name, StateModifierType.MeasureState id indices⟩

/-- Whether a modifier is a measurement carrying the given id. -/
def StateModifier.measures (m : StateModifier) (d : Nat) : Bool :=
  match m.modifier with
  | StateModifierType.MeasureState i _ => i == d
  | StateModifierType.UnitaryOp _ => false

/-- Measurement record: models the std HashMap from measurement id to
(outcome, probability) as an association list holding exactly one entry per
key, with insertion overwriting. -/
structure MeasuredResults where
  results : List (Nat × (Nat × ℚ))
deriving DecidableEq, Repr

/-- Mirrors MeasuredResults::new. -/
def MeasuredResults.new : MeasuredResults := ⟨[]⟩

/-- Models HashMap::insert: the new binding replaces any binding of the
same key. -/
def MeasuredResults.insert (m : MeasuredResults) (k : Nat) (v : Nat × ℚ) :
    MeasuredResults :=
  ⟨(k, v) :: m.results.filter (fun p => p.1 != k)⟩

/-- Models HashMap lookup. -/
def mrLookup (m : MeasuredResults) (k : Nat) : Option (Nat × ℚ) :=
  (m.results.find? (fun p => p.1 == k)).map Prod.snd

/-- Number of entries stored under a key (1 or 0 for a well-formed map). -/
def mrCount (m : MeasuredResults) (k : Nat) : Nat :=
  m.results.countP (fun p => p.1 == k)

theorem mrLookup_insert_self (m : MeasuredResults) (k : Nat) (v : Nat × ℚ) :
    mrLookup (m.insert k v) k = some v := by
  simp [mrLookup, MeasuredResults.insert, List.find?]

theorem find?_filter_ne {l : List (Nat × (Nat × ℚ))} {k k2 : Nat}
    (h : k2 ≠ k) :
    (l.filter (fun p => p.1 != k)).find? (fun p => p.1 == k2) =
      l.find? (fun p => p.1 == k2) := by
  induction l with
  | nil => rfl
  | cons a l ih =>
    rcases em (a.1 = k) with ha | ha
    · have h1 : ¬((a.1 != k) = true) := by simp [ha]
      have h2 : ¬((a.1 == k2) = true) := by
        simp [ha]
        omega
      have hf : List.filter (fun p => p.1 != k) (a :: l) =
          List.filter (fun p => p.1 != k) l := List.filter_cons_of_neg h1
      rw [hf, ih, List.find?_cons_of_neg l h2]
    · have h1 : (a.1 != k) = true := by simp [ha]
      have hf : List.filter (fun p => p.1 != k) (a :: l) =
          a :: List.filter (fun p => p.1 != k) l := List.filter_cons_of_pos h1
      rw [hf]
      cases hk2 : (a.1 == k2) with
      | true =>
        have e1 : List.find? (fun p => p.1 == k2)
            (a :: List.filter (fun p => p.1 != k) l) = some a :=
          List.find?_cons_of_pos _ hk2
        have e2 : List.find? (fun p => p.1 == k2) (a :: l) = some a :=
          List.find?_cons_of_pos _ hk2
        rw [e1, e2]
      | false =>
        have e1 : List.find? (fun p => p.1 == k2)
            (a :: List.filter (fun p => p.1 != k) l) =
            List.find? (fun p => p.1 == k2)
              (List.filter (fun p => p.1 != k) l) :=
          List.find?_cons_of_neg _ (by simp [hk2])
        have e2 : List.find? (fun p => p.1 == k2) (a :: l) =
            List.find? (fun p => p.1 == k2) l :=
          List.find?_cons_of_neg _ (by simp [hk2])
        rw [e1, e2, ih]

theorem mrLookup_insert_other (m : MeasuredResults) {k k2 : Nat}
    (v : Nat × ℚ) (h : k2 ≠ k) :
    mrLookup (m.insert k v) k2 = mrLookup m k2 := by
  have hk : (k == k2) = false := by
    simp
    omega
  simp only [mrLookup, MeasuredResults.insert, List.find?, hk]
  rw [find?_filter_ne h]

theorem mrCount_insert_self (m : MeasuredResults) (k : Nat) (v : Nat × ℚ) :
    mrCount (m.insert k v) k = 1 := by
  simp only [mrCount, MeasuredResults.insert, List.countP_cons]
  have h0 : (m.results.filter (fun p => p.1 != k)).countP
      (fun p => p.1 == k) = 0 := by
    apply List.countP_eq_zero.mpr
    intro p hp
    have := (List.mem_filter.mp hp).2
    simpa using this
  simp [h0]

theorem countP_filter_ne {l : List (Nat × (Nat × ℚ))} {k k2 : Nat}
    (h : k2 ≠ k) :
    (l.filter (fun p => p.1 != k)).countP (fun p => p.1 == k2) =
      l.countP (fun p => p.1 == k2) := by
  induction l with
  | nil => rfl
  | cons a l ih =>
    rcases em (a.1 = k) with ha | ha
    · have h1 : ¬((a.1 != k) = true) := by simp [ha]
      have h2 : ¬((a.1 == k2) = true) := by
        simp [ha]
        omega
      have hf : List.filter (fun p => p.1 != k) (a :: l) =
          List.filter (fun p => p.1 != k) l := List.filter_cons_of_neg h1
      rw [hf, ih, List.countP_cons_of_neg _ l h2]
    · have h1 : (a.1 != k) = true := by simp [ha]
      have hf : List.filter (fun p => p.1 != k) (a :: l) =
          a :: List.filter (fun p => p.1 != k) l := List.filter_cons_of_pos h1
      rw [hf]
      cases hk2 : (a.1 == k2) with
      | true =>
        have e1 : List.countP (fun p => p.1 == k2)
            (a :: List.filter (fun p => p.1 != k) l) =
            List.countP (fun p => p.1 == k2)
              (List.filter (fun p => p.1 != k) l) + 1 :=
          List.countP_cons_of_pos _ _ hk2
        have e2 : List.countP (fun p => p.1 == k2) (a :: l) =
            List.countP (fun p => p.1 == k2) l + 1 :=
          List.countP_cons_of_pos _ _ hk2
        rw [e1, e2, ih]
      | false =>
        have e1 : List.countP (fun p => p.1 == k2)
            (a :: List.filter (fun p => p.1 != k) l) =
            List.countP (fun p => p.1 == k2)
              (List.filter (fun p => p.1 != k) l) :=
          List.countP_cons_of_neg _ _ (by simp [hk2])
        have e2 : List.countP (fun p => p.1 == k2) (a :: l) =
            List.countP (fun p => p.1 == k2) l :=
          List.countP_cons_of_neg _ _ (by simp [hk2])
        rw [e1, e2, ih]

theorem mrCount_insert_other (m : MeasuredResults) {k k2 : Nat}
    (v : Nat × ℚ) (h : k2 ≠ k) :
    mrCount (m.insert k v) k2 = mrCount m k2 := by
  have hk : (k == k2) = false := by
    simp
    omega
  simp only [mrCount, MeasuredResults.insert, List.countP_cons, hk]
  rw [countP_filter_ne h]
  simp

/-- Apply one modifier to the (state, record) accumulator; mirrors
fold_modify_state. -/
def fold_modify_state (ak : ApplyKernel) (mk : MeasureKernel)
    (acc : LocalQuantumState × MeasuredResults) (modifier : StateModifier) :
    LocalQuantumState × MeasuredResults :=
  match modifier.modifier with
  | StateModifierType.UnitaryOp op => (acc.1.apply_op ak op, acc.2)
  | StateModifierType.MeasureState id indices =>
      let r := acc.1.measure mk indices
      (r.2, acc.2.insert id r.1)

/-- Folding operations, none of which measures under id d, preserves the
record entry and multiplicity of d. -/
theorem fold_preserves_id (ak : ApplyKernel) (mk : MeasureKernel) (d : Nat) :
    ∀ ops : List StateModifier, (∀ m ∈ ops, m.measures d = false) →
    ∀ acc : LocalQuantumState × MeasuredResults,
      mrLookup (ops.foldl (fold_modify_state ak mk) acc).2 d =
        mrLookup acc.2 d ∧
      mrCount (ops.foldl (fold_modify_state ak mk) acc).2 d =
        mrCount acc.2 d := by
  intro ops
  induction ops with
  | nil => intro _ acc; exact ⟨rfl, rfl⟩
  | cons m ops ih =>
    intro h acc
    have hm := h m (List.mem_cons_self m ops)
    have hops : ∀ x ∈ ops, x.measures d = false :=
      fun x hx => h x (List.mem_cons_of_mem m hx)
    rw [List.foldl_cons]
    rcases hmod : m.modifier with op | ⟨i, indices⟩
    · have hstep : fold_modify_state ak mk acc m = (acc.1.apply_op ak op, acc.2) := by
        rw [fold_modify_state, hmod]
      rw [hstep]
      exact ih hops _
    · have hid : i ≠ d := by
        rw [StateModifier.measures, hmod] at hm
        simpa using hm
      have hstep : fold_modify_state ak mk acc m =
          ((acc.1.measure mk indices).2,
            acc.2.insert i (acc.1.measure mk indices).1) := by
        rw [fold_modify_state, hmod]
      rw [hstep]
      rcases ih hops ((acc.1.measure mk indices).2,
        acc.2.insert i (acc.1.measure mk indices).1) with ⟨h1, h2⟩
      refine ⟨?_, ?_⟩
      · rw [h1, mrLookup_insert_other _ _ (Ne.symm hid)]
      · rw [h2, mrCount_insert_other _ _ (Ne.symm hid)]

/-- C7: when two measurements carry the same id d and the second of them is
the last d-measurement of the run, the final record holds exactly one entry
for d, namely the (outcome, probability) returned by the later
measurement. -/
theorem C7_duplicate_measurement_id (ak : ApplyKernel) (mk : MeasureKernel)
    (s0 : LocalQuantumState) (ops1 ops2 ops3 : List StateModifier)
    (d : Nat) (name1 name2 : String) (idx1 idx2 : List Nat)
    (h3 : ∀ m ∈ ops3, m.measures d = false) :
    mrLookup ((ops1 ++ [StateModifier.new_measurement name1 d idx1] ++ ops2
        ++ [StateModifier.new_measurement name2 d idx2] ++ ops3).foldl
        (fold_modify_state ak mk) (s0, MeasuredResults.new)).2 d =
      some (((ops1 ++ [StateModifier.new_measurement name1 d idx1]
        ++ ops2).foldl (fold_modify_state ak mk)
        (s0, MeasuredResults.new)).1.measure mk idx2).1 ∧
    mrCount ((ops1 ++ [StateModifier.new_measurement name1 d idx1] ++ ops2
        ++ [StateModifier.new_measurement name2 d idx2] ++ ops3).foldl
        (fold_modify_state ak mk) (s0, MeasuredResults.new)).2 d = 1 := by
  set mid := (ops1 ++ [StateModifier.new_measurement name1 d idx1]
    ++ ops2).foldl (fold_modify_state ak mk) (s0, MeasuredResults.new)
    with hmid
  have hsplit : (ops1 ++ [StateModifier.new_measurement name1 d idx1] ++ ops2
      ++ [StateModifier.new_measurement name2 d idx2] ++ ops3).foldl
      (fold_modify_state ak mk) (s0, MeasuredResults.new) =
      ops3.foldl (fold_modify_state ak mk)
        (fold_modify_state ak mk mid
          (StateModifier.new_measurement name2 d idx2)) := by
    rw [hmid]
    rw [show ops1 ++ [StateModifier.new_measurement name1 d idx1] ++ ops2
        ++ [StateModifier.new_measurement name2 d idx2] ++ ops3 =
        (ops1 ++ [StateModifier.new_measurement name1 d idx1] ++ ops2) ++
        ([StateModifier.new_measurement name2 d idx2] ++ ops3) by
      simp [List.append_assoc]]
    rw [List.foldl_append, List.foldl_append]
    rfl
  have hstep : fold_modify_state ak mk mid
      (StateModifier.new_measurement name2 d idx2) =
      ((mid.1.measure mk idx2).2,
        mid.2.insert d (mid.1.measure mk idx2).1) := rfl
  rw [hsplit, hstep]
  rcases fold_preserves_id ak mk d ops3 h3
    ((mid.1.measure mk idx2).2, mid.2.insert d (mid.1.measure mk idx2).1)
    with ⟨h1, h2⟩
  rw [h1, h2, mrLookup_insert_self, mrCount_insert_self]
  exact ⟨rfl, rfl⟩

/-- Witness for C7: a two-measurement run under the same id with a concrete
measurement kernel; the record keeps only the later result. -/
theorem C7_duplicate_measurement_id_witness :
    (∀ m ∈ ([] : List StateModifier),
      m.measures 7 = false) ∧
    (mrLookup (([] ++ [StateModifier.new_measurement "a" 7 [0]] ++ [] ++
        [StateModifier.new_measurement "b" 7 [0]] ++ []).foldl
        (fold_modify_state (fun _ _ _ arena _ _ _ => arena)
          (fun _ _ state _ _ _ => ((2, (1 : ℚ)), state)))
        (LocalQuantumState.new 1, MeasuredResults.new)).2 7 =
      some ((([] ++ [StateModifier.new_measurement "a" 7 [0]] ++ []).foldl
        (fold_modify_state (fun _ _ _ arena _ _ _ => arena)
          (fun _ _ state _ _ _ => ((2, (1 : ℚ)), state)))
        (LocalQuantumState.new 1, MeasuredResults.new)).1.measure
        (fun _ _ state _ _ _ => ((2, (1 : ℚ)), state)) [0]).1 ∧
     mrCount (([] ++ [StateModifier.new_measurement "a" 7 [0]] ++ [] ++
        [StateModifier.new_measurement "b" 7 [0]] ++ []).foldl
        (fold_modify_state (fun _ _ _ arena _ _ _ => arena)
          (fun _ _ state _ _ _ => ((2, (1 : ℚ)), state)))
        (LocalQuantumState.new 1, MeasuredResults.new)).2 7 = 1) :=
  ⟨fun m hm => absurd hm (List.not_mem_nil m),
    C7_duplicate_measurement_id (fun _ _ _ arena _ _ _ => arena)
      (fun _ _ state _ _ _ => ((2, (1 : ℚ)), state))
      (LocalQuantumState.new 1) [] [] [] 7 "a" "b" [0] [0]
      (fun m hm => absurd hm (List.not_mem_nil m))⟩

/-! ### The qubit handle graph and the graph resolver

Qubit handles live in the external qubits module; following the
specification, a handle records a creation-order identifier (the identity
used for the priority queue and for the identity-based dedup), its absolute
indices, and a parent relation.  Sharing in the Rust code goes through
reference-counted aliases; in this tree embedding a shared parent appears
as equal subtrees carrying the same identifier, and the well-formedness
predicate below makes the identifier determine the node. -/

mutual
/-- Modelled from the spec: a qubit handle with its creation-order id,
absolute indices and parent relation. -/
inductive Qubit where
  | mk (qid : Nat) (indices : List Nat) (parent : Option Parent)
/-- Modelled from the spec: the parent relation of a handle. -/
inductive Parent where
  | Owned (parents : Qubits) (modifier : Option StateModifier)
  | Shared (parent : Qubit)
/-- Parent list of an owned edge. -/
inductive Qubits where
  | nil
  | cons (head : Qubit) (tail : Qubits)
end

def Qubit.qid : Qubit → Nat
  | Qubit.mk i _ _ => i

def Qubit.indices : Qubit → List Nat
  | Qubit.mk _ idx _ => idx

def Qubit.parent : Qubit → Option Parent
  | Qubit.mk _ _ p => p

def Qubits.toList : Qubits → List Qubit
  | Qubits.nil => []
  | Qubits.cons q t => q :: t.toList

mutual
def Qubit.size : Qubit → Nat
  | Qubit.mk _ _ none => 1
  | Qubit.mk _ _ (some (Parent.Shared p)) => 1 + p.size
  | Qubit.mk _ _ (some (Parent.Owned ps _)) => 1 + ps.sizeL
def Qubits.sizeL : Qubits → Nat
  | Qubits.nil => 0
  | Qubits.cons q t => q.size + t.sizeL
end

mutual
/-- All handles reachable from a handle, the handle itself first. -/
def Qubit.nodes : Qubit → List Qubit
  | Qubit.mk i idx none => [Qubit.mk i idx none]
  | Qubit.mk i idx (some (Parent.Shared p)) =>
      Qubit.mk i idx (some (Parent.Shared p)) :: p.nodes
  | Qubit.mk i idx (some (Parent.Owned ps m)) =>
      Qubit.mk i idx (some (Parent.Owned ps m)) :: ps.nodesL
def Qubits.nodesL : Qubits → List Qubit
  | Qubits.nil => []
  | Qubits.cons q t => q.nodes ++ t.nodesL
end

/-- Direct parents of a handle. -/
def parentsOf (x : Qubit) : List Qubit :=
  match x.parent with
  | none => []
  | some (Parent.Shared p) => [p]
  | some (Parent.Owned ps _) => ps.toList

/-- Parents consumed through an owned edge. -/
def ownedParents (x : Qubit) : List Qubit :=
  match x.parent with
  | some (Parent.Owned ps _) => ps.toList
  | _ => []

/-- Parent aliased through a shared edge. -/
def sharedParents (x : Qubit) : List Qubit :=
  match x.parent with
  | some (Parent.Shared p) => [p]
  | _ => []

/-- The modifier attached to a handle's owned edge, if any. -/
def ownedModifier : Qubit → Option StateModifier
  | Qubit.mk _ _ (some (Parent.Owned _ (some m))) => some m
  | _ => none

/-- Modelled from the spec: qubit equality is identity-based (the
creation-order id names the handle), matching the dedup contract of the
resolver. -/
def qubit_in_heap (q : Qubit) (heap : List Qubit) : Bool :=
  heap.any (fun hq => hq.qid == q.qid)

/-- Pop a maximum-priority (largest id) element off the heap list; models
BinaryHeap::pop with the spec's creation-order priority. -/
def heapPop : List Qubit → Option (Qubit × List Qubit)
  | [] => none
  | q :: t =>
    match heapPop t with
    | none => some (q, [])
    | some (q2, t2) => if q.qid < q2.qid then some (q2, q :: t2) else some (q, t)

/-- The resolver loop of get_opfns_and_frontier: repeatedly pop the
highest-id handle; an owned parent edge pushes its parents and prepends its
modifier to the operation queue; a shared edge pushes the parent only when
its identity is not already pending; an origin handle joins the frontier.
The fuel argument dominates the total heap size, which strictly decreases
each iteration. -/
def resolve_loop : Nat → List Qubit → List Qubit → List StateModifier →
    List Qubit × List StateModifier
  | 0, _, frontier, queue => (frontier, queue)
  | fuel + 1, heap, frontier, queue =>
    match heapPop heap with
    | none => (frontier, queue)
    | some (q, rest) =>
      match q.parent with
      | some (Parent.Owned ps m) =>
          resolve_loop fuel (rest ++ ps.toList) frontier
            (match m with
              | some mm => mm :: queue
              | none => queue)
      | some (Parent.Shared p) =>
          if qubit_in_heap p rest then resolve_loop fuel rest frontier queue
          else resolve_loop fuel (rest ++ [p]) frontier queue
      | none => resolve_loop fuel rest (frontier ++ [q]) queue

/-- Total size of the pending heap. -/
def heapSize (heap : List Qubit) : Nat :=
  (heap.map Qubit.size).sum

/-- Mirrors get_opfns_and_frontier: resolve the graph hanging off the
terminal handle q into (frontier, ordered operations). -/
def get_opfns_and_frontier (q : Qubit) : List Qubit × List StateModifier :=
  resolve_loop q.size [q] [] []

/-! ### Structural facts about the handle graph -/

theorem Qubit.size_pos : ∀ q : Qubit, 1 ≤ q.size
  | Qubit.mk _ _ none => Nat.le_refl 1
  | Qubit.mk _ _ (some (Parent.Shared _)) => Nat.le_add_right 1 _
  | Qubit.mk _ _ (some (Parent.Owned _ _)) => Nat.le_add_right 1 _

theorem heapSize_nil : heapSize [] = 0 := rfl

theorem heapSize_cons (q : Qubit) (t : List Qubit) :
    heapSize (q :: t) = q.size + heapSize t := by
  simp [heapSize]

theorem heapSize_append (a b : List Qubit) :
    heapSize (a ++ b) = heapSize a + heapSize b := by
  simp [heapSize]

theorem heapSize_eq_of_perm {a b : List Qubit} (h : a.Perm b) :
    heapSize a = heapSize b :=
  List.Perm.sum_eq (List.Perm.map Qubit.size h)

theorem heapSize_eq_zero {h : List Qubit} (he : heapSize h = 0) : h = [] := by
  cases h with
  | nil => rfl
  | cons q t =>
    have := Qubit.size_pos q
    rw [heapSize_cons] at he
    omega

theorem sizeL_toList : ∀ ps : Qubits, heapSize ps.toList = ps.sizeL
  | Qubits.nil => rfl
  | Qubits.cons q t => by
      rw [Qubits.toList, heapSize_cons, sizeL_toList t, Qubits.sizeL]

theorem Qubit.mem_nodes_self : ∀ q : Qubit, q ∈ q.nodes
  | Qubit.mk i idx none => by
      rw [Qubit.nodes]
      exact List.mem_cons_self _ _
  | Qubit.mk i idx (some (Parent.Shared p)) => by
      rw [Qubit.nodes]
      exact List.mem_cons_self _ _
  | Qubit.mk i idx (some (Parent.Owned ps m)) => by
      rw [Qubit.nodes]
      exact List.mem_cons_self _ _

theorem nodesL_eq : ∀ ps : Qubits,
    Qubits.nodesL ps = (ps.toList.map Qubit.nodes).flatten
  | Qubits.nil => rfl
  | Qubits.cons q t => by
      rw [Qubits.nodesL, Qubits.toList, List.map_cons, List.flatten_cons,
        nodesL_eq t]

theorem mem_nodesL {x : Qubit} {ps : Qubits} :
    x ∈ ps.nodesL ↔ ∃ z ∈ ps.toList, x ∈ z.nodes := by
  rw [nodesL_eq, List.mem_flatten]
  constructor
  · rintro ⟨l, hl, hx⟩
    rcases List.mem_map.mp hl with ⟨z, hz, rfl⟩
    exact ⟨z, hz, hx⟩
  · rintro ⟨z, hz, hx⟩
    exact ⟨z.nodes, List.mem_map.mpr ⟨z, hz, rfl⟩, hx⟩

/-- Nodes of a handle: the handle itself, or a node of one of its
parents. -/
theorem mem_nodes_cases : ∀ q : Qubit, ∀ x ∈ q.nodes,
    x = q ∨ ∃ p ∈ parentsOf q, x ∈ p.nodes := by
  intro q
  cases q with
  | mk i idx par =>
    cases par with
    | none =>
      intro x hx
      rw [Qubit.nodes] at hx
      rcases List.mem_cons.mp hx with h | h
      · exact Or.inl h
      · exact absurd h (List.not_mem_nil x)
    | some pp =>
      cases pp with
      | Shared p =>
        intro x hx
        rw [Qubit.nodes] at hx
        rcases List.mem_cons.mp hx with h | h
        · exact Or.inl h
        · exact Or.inr ⟨p, by simp [parentsOf, Qubit.parent], h⟩
      | Owned ps m =>
        intro x hx
        rw [Qubit.nodes] at hx
        rcases List.mem_cons.mp hx with h | h
        · exact Or.inl h
        · rcases mem_nodesL.mp h with ⟨z, hz, hxz⟩
          exact Or.inr ⟨z, by simpa [parentsOf, Qubit.parent] using hz, hxz⟩

theorem parents_mem_nodes : ∀ q : Qubit, ∀ p ∈ parentsOf q, p ∈ q.nodes := by
  intro q
  cases q with
  | mk i idx par =>
    cases par with
    | none => intro p hp; exact absurd hp (List.not_mem_nil p)
    | some pp =>
      cases pp with
      | Shared p2 =>
        intro p hp
        simp only [parentsOf, Qubit.parent, List.mem_singleton] at hp
        subst hp
        rw [Qubit.nodes]
        exact List.mem_cons_of_mem _ (Qubit.mem_nodes_self p)
      | Owned ps m =>
        intro p hp
        simp only [parentsOf, Qubit.parent] at hp
        rw [Qubit.nodes]
        exact List.mem_cons_of_mem _
          (mem_nodesL.mpr ⟨p, hp, Qubit.mem_nodes_self p⟩)

mutual
theorem nodes_trans : ∀ q : Qubit, ∀ y ∈ q.nodes, ∀ x ∈ y.nodes, x ∈ q.nodes
  | Qubit.mk i idx none => by
      intro y hy x hx
      rw [Qubit.nodes] at hy ⊢
      rcases List.mem_cons.mp hy with h | h
      · subst h
        exact hx
      · exact absurd h (List.not_mem_nil y)
  | Qubit.mk i idx (some (Parent.Shared p)) => by
      intro y hy x hx
      rw [Qubit.nodes] at hy ⊢
      rcases List.mem_cons.mp hy with h | h
      · subst h
        exact hx
      · exact List.mem_cons_of_mem _ (nodes_trans p y h x hx)
  | Qubit.mk i idx (some (Parent.Owned ps m)) => by
      intro y hy x hx
      rw [Qubit.nodes] at hy ⊢
      rcases List.mem_cons.mp hy with h | h
      · subst h
        exact hx
      · exact List.mem_cons_of_mem _ (nodesL_trans ps y h x hx)
theorem nodesL_trans : ∀ ps : Qubits, ∀ y ∈ ps.nodesL, ∀ x ∈ y.nodes,
    x ∈ ps.nodesL
  | Qubits.nil => by
      intro y hy
      exact absurd hy (List.not_mem_nil y)
  | Qubits.cons q t => by
      intro y hy x hx
      rw [Qubits.nodesL] at hy ⊢
      rcases List.mem_append.mp hy with h | h
      · exact List.mem_append_left _ (nodes_trans q y h x hx)
      · exact List.mem_append_right _ (nodesL_trans t y h x hx)
end

/- Under the parent-id monotonicity hypothesis every reachable node has an
id at most the root id. -/
mutual
theorem node_id_le : ∀ q : Qubit,
    (∀ x ∈ q.nodes, ∀ p ∈ parentsOf x, p.qid < x.qid) →
    ∀ x ∈ q.nodes, x.qid ≤ q.qid
  | Qubit.mk i idx none => by
      intro _ x hx
      rw [Qubit.nodes] at hx
      rcases List.mem_cons.mp hx with h | h
      · subst h
        exact Nat.le_refl _
      · exact absurd h (List.not_mem_nil x)
  | Qubit.mk i idx (some (Parent.Shared p)) => by
      intro hmono x hx
      rw [Qubit.nodes] at hx
      rcases List.mem_cons.mp hx with h | h
      · subst h
        exact Nat.le_refl _
      · have hsub : ∀ z ∈ p.nodes, ∀ r ∈ parentsOf z, r.qid < z.qid := by
          intro z hz r hr
          exact hmono z
            (List.mem_cons_of_mem _ (show z ∈ p.nodes from hz)) r hr
        have h1 : x.qid ≤ p.qid := node_id_le p hsub x h
        have h2 : p.qid < (Qubit.mk i idx (some (Parent.Shared p))).qid := by
          apply hmono _ (Qubit.mem_nodes_self _)
          simp [parentsOf, Qubit.parent]
        exact Nat.le_of_lt (Nat.lt_of_le_of_lt h1 h2)
  | Qubit.mk i idx (some (Parent.Owned ps m)) => by
      intro hmono x hx
      rw [Qubit.nodes] at hx
      rcases List.mem_cons.mp hx with h | h
      · subst h
        exact Nat.le_refl _
      · have hsub : ∀ z ∈ ps.nodesL, ∀ r ∈ parentsOf z, r.qid < z.qid := by
          intro z hz r hr
          exact hmono z (List.mem_cons_of_mem _ hz) r hr
        rcases mem_nodesL.mp h with ⟨z, hz, hxz⟩
        have h1 : x.qid ≤ z.qid := node_id_le_list ps hsub z hz x hxz
        have h2 : z.qid < (Qubit.mk i idx (some (Parent.Owned ps m))).qid := by
          apply hmono _ (Qubit.mem_nodes_self _)
          simp only [parentsOf, Qubit.parent]
          exact hz
        exact Nat.le_of_lt (Nat.lt_of_le_of_lt h1 h2)
theorem node_id_le_list : ∀ ps : Qubits,
    (∀ x ∈ ps.nodesL, ∀ p ∈ parentsOf x, p.qid < x.qid) →
    ∀ z ∈ ps.toList, ∀ x ∈ z.nodes, x.qid ≤ z.qid
  | Qubits.nil => by
      intro _ z hz
      exact absurd hz (List.not_mem_nil z)
  | Qubits.cons q t => by
      intro hmono z hz x hx
      rw [Qubits.toList] at hz
      rcases List.mem_cons.mp hz with h | h
      · subst h
        apply node_id_le z _ x hx
        intro y hy r hr
        apply hmono y _ r hr
        rw [Qubits.nodesL]
        exact List.mem_append_left _ hy
      · apply node_id_le_list t _ z h x hx
        intro y hy r hr
        apply hmono y _ r hr
        rw [Qubits.nodesL]
        exact List.mem_append_right _ hy
end

/-! ### Heap pop facts -/

theorem heapPop_none_iff : ∀ h : List Qubit, heapPop h = none ↔ h = [] := by
  intro h
  cases h with
  | nil => simp [heapPop]
  | cons a t =>
    simp only [heapPop]
    cases hpt : heapPop t with
    | none => simp
    | some pr =>
      obtain ⟨q2, t2⟩ := pr
      rcases em (a.qid < q2.qid) with h1 | h1 <;> simp [h1]

theorem heapPop_perm : ∀ (h : List Qubit) (q : Qubit) (rest : List Qubit),
    heapPop h = some (q, rest) → h.Perm (q :: rest) := by
  intro h
  induction h with
  | nil => intro q rest hc; simp [heapPop] at hc
  | cons a t ih =>
    intro q rest hp
    rw [heapPop] at hp
    cases hpt : heapPop t with
    | none =>
      rw [hpt] at hp
      have ht : t = [] := (heapPop_none_iff t).mp hpt
      subst ht
      have hp2 : some (a, ([] : List Qubit)) = some (q, rest) := hp
      simp only [Option.some.injEq, Prod.mk.injEq] at hp2
      obtain ⟨rfl, rfl⟩ := hp2
      exact List.Perm.refl _
    | some pr =>
      obtain ⟨q2, t2⟩ := pr
      rw [hpt] at hp
      have hp2 : (if a.qid < q2.qid then some (q2, a :: t2)
          else some (a, t)) = some (q, rest) := hp
      rcases em (a.qid < q2.qid) with h1 | h1
      · rw [if_pos h1] at hp2
        simp only [Option.some.injEq, Prod.mk.injEq] at hp2
        obtain ⟨rfl, rfl⟩ := hp2
        exact List.Perm.trans (List.Perm.cons a (ih q2 t2 hpt))
          (List.Perm.swap q2 a t2)
      · rw [if_neg h1] at hp2
        simp only [Option.some.injEq, Prod.mk.injEq] at hp2
        obtain ⟨rfl, rfl⟩ := hp2
        exact List.Perm.refl _

theorem heapPop_max : ∀ (h : List Qubit) (q : Qubit) (rest : List Qubit),
    heapPop h = some (q, rest) → ∀ x ∈ h, x.qid ≤ q.qid := by
  intro h
  induction h with
  | nil => intro q rest hc; simp [heapPop] at hc
  | cons a t ih =>
    intro q rest hp x hx
    rw [heapPop] at hp
    cases hpt : heapPop t with
    | none =>
      rw [hpt] at hp
      have ht : t = [] := (heapPop_none_iff t).mp hpt
      subst ht
      have hp2 : some (a, ([] : List Qubit)) = some (q, rest) := hp
      simp only [Option.some.injEq, Prod.mk.injEq] at hp2
      obtain ⟨rfl, rfl⟩ := hp2
      rcases List.mem_cons.mp hx with h1 | h1
      · subst h1; exact Nat.le_refl _
      · exact absurd h1 (List.not_mem_nil x)
    | some pr =>
      obtain ⟨q2, t2⟩ := pr
      rw [hpt] at hp
      have hp2 : (if a.qid < q2.qid then some (q2, a :: t2)
          else some (a, t)) = some (q, rest) := hp
      rcases em (a.qid < q2.qid) with h1 | h1
      · rw [if_pos h1] at hp2
        simp only [Option.some.injEq, Prod.mk.injEq] at hp2
        obtain ⟨rfl, rfl⟩ := hp2
        rcases List.mem_cons.mp hx with h2 | h2
        · subst h2; exact Nat.le_of_lt h1
        · exact ih q2 t2 hpt x h2
      · rw [if_neg h1] at hp2
        simp only [Option.some.injEq, Prod.mk.injEq] at hp2
        obtain ⟨rfl, rfl⟩ := hp2
        rcases List.mem_cons.mp hx with h2 | h2
        · subst h2; exact Nat.le_refl _
        · exact Nat.le_trans (ih q2 t2 hpt x h2) (Nat.le_of_not_lt h1)

/-! ### Reachable identifier sets and the resolver specification -/

/-- All nodes hanging off the pending heap. -/
def heapNodes (hs : List Qubit) : List Qubit :=
  (hs.map Qubit.nodes).flatten

/-- Identifiers reachable from the pending heap. -/
def heapReach (hs : List Qubit) : Finset Nat :=
  ((heapNodes hs).map Qubit.qid).toFinset

theorem mem_heapNodes {x : Qubit} {hs : List Qubit} :
    x ∈ heapNodes hs ↔ ∃ h ∈ hs, x ∈ h.nodes := by
  rw [heapNodes, List.mem_flatten]
  constructor
  · rintro ⟨l, hl, hx⟩
    rcases List.mem_map.mp hl with ⟨z, hz, rfl⟩
    exact ⟨z, hz, hx⟩
  · rintro ⟨z, hz, hx⟩
    exact ⟨z.nodes, List.mem_map.mpr ⟨z, hz, rfl⟩, hx⟩

theorem mem_heapReach {i : Nat} {hs : List Qubit} :
    i ∈ heapReach hs ↔ ∃ x ∈ heapNodes hs, x.qid = i := by
  rw [heapReach, List.mem_toFinset, List.mem_map]

theorem heapNodes_append (a b : List Qubit) :
    heapNodes (a ++ b) = heapNodes a ++ heapNodes b := by
  simp [heapNodes]

theorem heapNodes_cons (q : Qubit) (t : List Qubit) :
    heapNodes (q :: t) = q.nodes ++ heapNodes t := by
  simp [heapNodes]

theorem heapReach_append (a b : List Qubit) :
    heapReach (a ++ b) = heapReach a ∪ heapReach b := by
  rw [heapReach, heapReach, heapReach, heapNodes_append, List.map_append,
    List.toFinset_append]

theorem heapReach_cons (q : Qubit) (t : List Qubit) :
    heapReach (q :: t) = (q.nodes.map Qubit.qid).toFinset ∪ heapReach t := by
  rw [heapReach, heapReach, heapNodes_cons, List.map_append,
    List.toFinset_append]

theorem heapReach_eq_of_perm {a b : List Qubit} (h : a.Perm b) :
    heapReach a = heapReach b := by
  apply List.toFinset_eq_of_perm
  exact List.Perm.map Qubit.qid (List.Perm.flatten (List.Perm.map _ h))

theorem heapReach_nil : heapReach [] = ∅ := rfl

/-- Every reachable id is dominated by some heap root id. -/
theorem heapReach_bound {q0 : Qubit}
    (hmono : ∀ x ∈ q0.nodes, ∀ p ∈ parentsOf x, p.qid < x.qid)
    {hs : List Qubit} (hmem : ∀ h ∈ hs, h ∈ q0.nodes) :
    ∀ i ∈ heapReach hs, ∃ h ∈ hs, i ≤ h.qid := by
  intro i hi
  rcases mem_heapReach.mp hi with ⟨x, hx, rfl⟩
  rcases mem_heapNodes.mp hx with ⟨h, hh, hxh⟩
  refine ⟨h, hh, ?_⟩
  apply node_id_le h _ x hxh
  intro z hz r hr
  exact hmono z (nodes_trans q0 h (hmem h hh) z hz) r hr

/-- Finding a handle by its id among the nodes of the root. -/
def nodeOf (q0 : Qubit) (i : Nat) : Option Qubit :=
  q0.nodes.find? (fun x => x.qid == i)

theorem nodeOf_eq_self {q0 q : Qubit}
    (hco : ∀ x ∈ q0.nodes, ∀ y ∈ q0.nodes, x.qid = y.qid → x = y)
    (hq : q ∈ q0.nodes) : nodeOf q0 q.qid = some q := by
  cases hfind : nodeOf q0 q.qid with
  | none =>
    rw [nodeOf] at hfind
    have : ∃ x ∈ q0.nodes, (fun x : Qubit => x.qid == q.qid) x = true :=
      ⟨q, hq, by simp⟩
    rw [List.find?_eq_none] at hfind
    rcases this with ⟨x, hx, hpx⟩
    exact absurd hpx (by simpa using hfind x hx)
  | some x =>
    rw [nodeOf] at hfind
    have hx : x ∈ q0.nodes := List.mem_of_find?_eq_some hfind
    have hpx := List.find?_some hfind
    have : x = q := hco x hx q hq (by simpa using hpx)
    rw [this]

/-- Origin filter for the frontier. -/
def frontierOf (x : Qubit) : Option Qubit :=
  match x.parent with
  | none => some x
  | some _ => none

/-- Specification of the operation list: reachable handles enumerated by
ascending id, keeping the modifiers of owned edges. -/
def modsSpec (q0 : Qubit) (S : Finset Nat) : List StateModifier :=
  ((List.range (q0.qid + 1)).filter (fun i => decide (i ∈ S))).filterMap
    (fun i => (nodeOf q0 i).bind ownedModifier)

/-- Specification of the frontier: reachable origin handles enumerated by
descending id (pop order). -/
def frontierSpec (q0 : Qubit) (S : Finset Nat) : List Qubit :=
  (((List.range (q0.qid + 1)).filter (fun i => decide (i ∈ S))).reverse).filterMap
    (fun i => (nodeOf q0 i).bind frontierOf)

theorem modsSpec_empty (q0 : Qubit) : modsSpec q0 ∅ = [] := by
  rw [modsSpec]
  have : (List.range (q0.qid + 1)).filter (fun i => decide (i ∈ (∅ : Finset Nat))) = [] := by
    simp
  rw [this]
  rfl

theorem frontierSpec_empty (q0 : Qubit) : frontierSpec q0 ∅ = [] := by
  rw [frontierSpec]
  have : (List.range (q0.qid + 1)).filter (fun i => decide (i ∈ (∅ : Finset Nat))) = [] := by
    simp
  rw [this]
  rfl

/-- Appending a fresh maximum to the reachable set appends it at the end of
the ascending enumeration. -/
theorem filter_range_insert_max {S : Finset Nat} {m B : Nat} (hmB : m < B)
    (hm : m ∉ S) (hS : ∀ i ∈ S, i < m) :
    (List.range B).filter (fun i => decide (i ∈ insert m S)) =
      (List.range B).filter (fun i => decide (i ∈ S)) ++ [m] := by
  induction B with
  | zero => exact absurd hmB (Nat.not_lt_zero m)
  | succ b ih =>
    rw [List.range_succ, List.filter_append, List.filter_append]
    rcases em (m = b) with hmb | hmb
    · subst hmb
      have h1 : (List.range m).filter (fun i => decide (i ∈ insert m S)) =
          (List.range m).filter (fun i => decide (i ∈ S)) := by
        apply List.filter_congr
        intro i hi
        have him : i ≠ m := by
          have := List.mem_range.mp hi
          omega
        simp [Finset.mem_insert, him]
      have h2 : [m].filter (fun i => decide (i ∈ insert m S)) = [m] := by
        simp
      have h3 : [m].filter (fun i => decide (i ∈ S)) = [] := by
        simp [hm]
      rw [h1, h2, h3, List.append_nil]
    · have hmb2 : m < b := by
        have := hmB
        omega
      have hb1 : b ∉ insert m S := by
        rw [Finset.mem_insert]
        rintro (h | h)
        · exact hmb h.symm
        · have := hS b h
          omega
      have hb2 : b ∉ S := fun h => hb1 (Finset.mem_insert_of_mem h)
      have hdis : ¬(b = m ∨ b ∈ S) := by
        rintro (h | h)
        · exact hmb h.symm
        · exact hb2 h
      have h2 : [b].filter (fun i => decide (i ∈ insert m S)) = [] := by
        simp [Finset.mem_insert, hdis]
      have h3 : [b].filter (fun i => decide (i ∈ S)) = [] := by
        simp [hb2]
      rw [h2, h3, List.append_nil, List.append_nil, ih hmb2]

theorem filterMap_singleton_toList {α β : Type} (f : α → Option β) (a : α) :
    List.filterMap f [a] = (f a).toList := by
  cases hf : f a <;> simp [List.filterMap_cons, hf]

theorem modsSpec_insert {q0 : Qubit} {S : Finset Nat} {m : Nat}
    (hmB : m ≤ q0.qid) (hm : m ∉ S) (hS : ∀ i ∈ S, i < m) :
    modsSpec q0 (insert m S) =
      modsSpec q0 S ++ ((nodeOf q0 m).bind ownedModifier).toList := by
  rw [modsSpec, modsSpec, filter_range_insert_max (by omega) hm hS,
    List.filterMap_append, filterMap_singleton_toList]

theorem frontierSpec_insert {q0 : Qubit} {S : Finset Nat} {m : Nat}
    (hmB : m ≤ q0.qid) (hm : m ∉ S) (hS : ∀ i ∈ S, i < m) :
    frontierSpec q0 (insert m S) =
      ((nodeOf q0 m).bind frontierOf).toList ++ frontierSpec q0 S := by
  rw [frontierSpec, frontierSpec, filter_range_insert_max (by omega) hm hS,
    List.reverse_append]
  have h1 : ([m].reverse : List Nat) = [m] := rfl
  rw [h1, List.filterMap_append, filterMap_singleton_toList]

theorem qubit_in_heap_true_iff {p : Qubit} {h : List Qubit} :
    qubit_in_heap p h = true ↔ ∃ x ∈ h, x.qid = p.qid := by
  simp [qubit_in_heap, List.any_eq_true]

theorem qubit_in_heap_false_iff {p : Qubit} {h : List Qubit} :
    qubit_in_heap p h = false ↔ ∀ x ∈ h, x.qid ≠ p.qid := by
  rw [← Bool.not_eq_true, qubit_in_heap_true_iff]
  simp

/-! ### Well-formedness of a handle graph and the resolver invariant -/

/-- Well-formedness of the graph hanging off a terminal handle, reflecting
how the external qubit module builds handles: ids are creation-order (so
parents have strictly smaller ids and determine their node), every handle
is owned by at most one edge, the parents of one owned edge are distinct,
and no handle is both owned and aliased by a shared edge. -/
def WF (q0 : Qubit) : Prop :=
  (∀ x ∈ q0.nodes, ∀ y ∈ q0.nodes, x.qid = y.qid → x = y) ∧
  (∀ x ∈ q0.nodes, ∀ p ∈ parentsOf x, p.qid < x.qid) ∧
  (∀ x ∈ q0.nodes, ((ownedParents x).map Qubit.qid).Nodup) ∧
  (∀ x ∈ q0.nodes, ∀ y ∈ q0.nodes, ∀ p ∈ ownedParents x,
    ∀ r ∈ ownedParents y, p.qid = r.qid → x = y) ∧
  (∀ x ∈ q0.nodes, ∀ y ∈ q0.nodes, ∀ p ∈ sharedParents x,
    ∀ r ∈ ownedParents y, p.qid ≠ r.qid)

theorem ownedParents_sub (x : Qubit) : ∀ p ∈ ownedParents x, p ∈ parentsOf x := by
  intro p hp
  rw [ownedParents] at hp
  rw [parentsOf]
  cases hx : x.parent with
  | none => rw [hx] at hp; exact absurd hp (List.not_mem_nil p)
  | some pp =>
    cases pp with
    | Shared p2 => rw [hx] at hp; exact absurd hp (List.not_mem_nil p)
    | Owned ps m => rw [hx] at hp; exact hp

theorem sharedParents_sub (x : Qubit) : ∀ p ∈ sharedParents x, p ∈ parentsOf x := by
  intro p hp
  rw [sharedParents] at hp
  rw [parentsOf]
  cases hx : x.parent with
  | none => rw [hx] at hp; exact absurd hp (List.not_mem_nil p)
  | some pp =>
    cases pp with
    | Shared p2 => rw [hx] at hp; exact hp
    | Owned ps m => rw [hx] at hp; exact absurd hp (List.not_mem_nil p)

/-- Loop invariant of the resolver: pending ids are distinct, pending
handles are reachable from the root, and no handle reachable from the heap
owns a pending handle (its owner was already consumed). -/
def Inv (q0 : Qubit) (heap : List Qubit) : Prop :=
  (heap.map Qubit.qid).Nodup ∧
  (∀ h ∈ heap, h ∈ q0.nodes) ∧
  (∀ x ∈ heapNodes heap, ∀ p ∈ ownedParents x,
    ¬(p.qid ∈ heap.map Qubit.qid))

theorem Inv_perm {q0 : Qubit} {a b : List Qubit} (hp : a.Perm b)
    (hi : Inv q0 a) : Inv q0 b := by
  obtain ⟨h1, h2, h3⟩ := hi
  refine ⟨?_, ?_, ?_⟩
  · exact (List.Perm.nodup_iff (List.Perm.map Qubit.qid hp)).mp h1
  · intro h hh
    exact h2 h ((List.Perm.mem_iff hp).mpr hh)
  · intro x hx p hp2 hmem
    rcases mem_heapNodes.mp hx with ⟨h, hh, hxh⟩
    apply h3 x (mem_heapNodes.mpr ⟨h, (List.Perm.mem_iff hp).mpr hh, hxh⟩) p hp2
    rcases List.mem_map.mp hmem with ⟨z, hz, hze⟩
    exact List.mem_map.mpr ⟨z, (List.Perm.mem_iff hp).mpr hz, hze⟩

theorem nodes_parent_none {q : Qubit} (h : q.parent = none) :
    q.nodes = [q] := by
  cases q with
  | mk i idx par =>
    rw [Qubit.parent] at h
    subst h
    rw [Qubit.nodes]

theorem nodes_parent_shared {q p : Qubit}
    (h : q.parent = some (Parent.Shared p)) : q.nodes = q :: p.nodes := by
  cases q with
  | mk i idx par =>
    rw [Qubit.parent] at h
    subst h
    rw [Qubit.nodes]

theorem nodes_parent_owned {q : Qubit} {ps : Qubits}
    {m : Option StateModifier} (h : q.parent = some (Parent.Owned ps m)) :
    q.nodes = q :: ps.nodesL := by
  cases q with
  | mk i idx par =>
    rw [Qubit.parent] at h
    subst h
    rw [Qubit.nodes]

theorem size_parent_none {q : Qubit} (h : q.parent = none) : q.size = 1 := by
  cases q with
  | mk i idx par =>
    rw [Qubit.parent] at h
    subst h
    rw [Qubit.size]

theorem size_parent_shared {q p : Qubit}
    (h : q.parent = some (Parent.Shared p)) : q.size = 1 + p.size := by
  cases q with
  | mk i idx par =>
    rw [Qubit.parent] at h
    subst h
    rw [Qubit.size]

theorem size_parent_owned {q : Qubit} {ps : Qubits}
    {m : Option StateModifier} (h : q.parent = some (Parent.Owned ps m)) :
    q.size = 1 + ps.sizeL := by
  cases q with
  | mk i idx par =>
    rw [Qubit.parent] at h
    subst h
    rw [Qubit.size]

theorem parentsOf_eq_none {q : Qubit} (h : q.parent = none) :
    parentsOf q = [] := by
  rw [parentsOf, h]

theorem parentsOf_eq_shared {q p : Qubit}
    (h : q.parent = some (Parent.Shared p)) : parentsOf q = [p] := by
  rw [parentsOf, h]

theorem parentsOf_eq_owned {q : Qubit} {ps : Qubits}
    {m : Option StateModifier} (h : q.parent = some (Parent.Owned ps m)) :
    parentsOf q = ps.toList := by
  rw [parentsOf, h]

theorem ownedParents_eq_owned {q : Qubit} {ps : Qubits}
    {m : Option StateModifier} (h : q.parent = some (Parent.Owned ps m)) :
    ownedParents q = ps.toList := by
  rw [ownedParents, h]

theorem sharedParents_eq_shared {q p : Qubit}
    (h : q.parent = some (Parent.Shared p)) : sharedParents q = [p] := by
  rw [sharedParents, h]

theorem ownedModifier_eq (q : Qubit) :
    ownedModifier q =
      (match q.parent with
        | some (Parent.Owned _ m) => m
        | some (Parent.Shared _) => none
        | none => none) := by
  cases q with
  | mk i idx par =>
    cases par with
    | none => rfl
    | some pp =>
      cases pp with
      | Owned ps m =>
        cases m with
        | none => rfl
        | some mm => rfl
      | Shared p => rfl

theorem heapNodes_nil : heapNodes [] = [] := rfl

theorem heapReach_singleton (p : Qubit) :
    heapReach [p] = (p.nodes.map Qubit.qid).toFinset := by
  rw [heapReach, heapNodes_cons, heapNodes_nil, List.append_nil]

theorem Inv_tail {q0 : Qubit} {q : Qubit} {rest : List Qubit}
    (hi : Inv q0 (q :: rest)) : Inv q0 rest := by
  obtain ⟨h1, h2, h3⟩ := hi
  refine ⟨?_, ?_, ?_⟩
  · rw [List.map_cons] at h1
    exact (List.nodup_cons.mp h1).2
  · intro h hh
    exact h2 h (List.mem_cons_of_mem q hh)
  · intro x hx p hp2 hmem
    apply h3 x _ p hp2
    · rw [List.map_cons]
      exact List.mem_cons_of_mem _ hmem
    · rw [heapNodes_cons]
      exact List.mem_append_right _ hx

theorem heapReach_lt_of_roots {q0 : Qubit}
    (hmono : ∀ x ∈ q0.nodes, ∀ p ∈ parentsOf x, p.qid < x.qid)
    {hs : List Qubit} {c : Nat}
    (hroots : ∀ h ∈ hs, h ∈ q0.nodes ∧ h.qid < c) :
    ∀ i ∈ heapReach hs, i < c := by
  intro i hi
  rcases heapReach_bound hmono (fun h hh => (hroots h hh).1) i hi with
    ⟨h, hh, hle⟩
  exact Nat.lt_of_le_of_lt hle (hroots h hh).2


theorem ownedModifier_parent_none {q : Qubit} (h : q.parent = none) :
    ownedModifier q = none := by
  rw [ownedModifier_eq q, h]

theorem ownedModifier_parent_shared {q p : Qubit}
    (h : q.parent = some (Parent.Shared p)) : ownedModifier q = none := by
  rw [ownedModifier_eq q, h]

theorem ownedModifier_parent_owned {q : Qubit} {ps : Qubits}
    {mo : Option StateModifier} (h : q.parent = some (Parent.Owned ps mo)) :
    ownedModifier q = mo := by
  rw [ownedModifier_eq q, h]

theorem frontierOf_parent_none {q : Qubit} (h : q.parent = none) :
    frontierOf q = some q := by
  rw [frontierOf, h]

theorem frontierOf_parent_some {q : Qubit} {pp : Parent}
    (h : q.parent = some pp) : frontierOf q = none := by
  rw [frontierOf, h]

/-- Master characterization of the resolver loop: with adequate fuel and
the loop invariant, the loop extends the frontier accumulator with the
reachable origins in descending-id (pop) order and appends to the front of
the queue accumulator the reachable owned modifiers, listed in
ascending-id order. -/
theorem resolve_loop_spec (q0 : Qubit) (hWF : WF q0) :
    ∀ (fuel : Nat) (heap frontier : List Qubit)
      (queue : List StateModifier),
      heapSize heap ≤ fuel → Inv q0 heap →
      resolve_loop fuel heap frontier queue =
        (frontier ++ frontierSpec q0 (heapReach heap),
         modsSpec q0 (heapReach heap) ++ queue) := by
  obtain ⟨hco, hmono, hnodup3, howned3, hshared3⟩ := hWF
  intro fuel
  induction fuel with
  | zero =>
    intro heap frontier queue hsz hInv
    have hemp : heap = [] := heapSize_eq_zero (Nat.le_zero.mp hsz)
    subst hemp
    rw [resolve_loop, heapReach_nil, modsSpec_empty, frontierSpec_empty]
    simp
  | succ fuel ih =>
    intro heap frontier queue hsz hInv
    cases hpop : heapPop heap with
    | none =>
      have hemp : heap = [] := (heapPop_none_iff heap).mp hpop
      subst hemp
      rw [heapReach_nil, modsSpec_empty, frontierSpec_empty]
      rw [show resolve_loop (fuel + 1) [] frontier queue = (frontier, queue)
        from by rw [resolve_loop]; rfl]
      simp
    | some pr =>
      obtain ⟨q, rest⟩ := pr
      have hperm : heap.Perm (q :: rest) := heapPop_perm heap q rest hpop
      have hInvQ : Inv q0 (q :: rest) := Inv_perm hperm hInv
      obtain ⟨hnodupQ, hmemQ, hEQ⟩ := hInvQ
      have hq0 : q ∈ q0.nodes := hmemQ q (List.mem_cons_self q rest)
      have hqle : q.qid ≤ q0.qid := node_id_le q0 hmono q hq0
      have hrest_mem : ∀ h ∈ rest, h ∈ q0.nodes :=
        fun h hh => hmemQ h (List.mem_cons_of_mem q hh)
      have hqnotrest : ¬(q.qid ∈ rest.map Qubit.qid) := by
        rw [List.map_cons] at hnodupQ
        exact (List.nodup_cons.mp hnodupQ).1
      have hrest_lt : ∀ h ∈ rest, h.qid < q.qid := by
        intro h hh
        have hle : h.qid ≤ q.qid :=
          heapPop_max heap q rest hpop h
            ((List.Perm.mem_iff hperm).mpr (List.mem_cons_of_mem q hh))
        have hne : h.qid ≠ q.qid := by
          intro hc
          exact hqnotrest (List.mem_map.mpr ⟨h, hh, hc⟩)
        omega
      have hreach : heapReach heap = heapReach (q :: rest) :=
        heapReach_eq_of_perm hperm
      have hsizeQ : heapSize heap = q.size + heapSize rest := by
        rw [heapSize_eq_of_perm hperm, heapSize_cons]
      have hnodeq : nodeOf q0 q.qid = some q := nodeOf_eq_self hco hq0
      have hstep : resolve_loop (fuel + 1) heap frontier queue =
          (match q.parent with
            | some (Parent.Owned ps m) =>
                resolve_loop fuel (rest ++ ps.toList) frontier
                  (match m with
                    | some mm => mm :: queue
                    | none => queue)
            | some (Parent.Shared p) =>
                if qubit_in_heap p rest then
                  resolve_loop fuel rest frontier queue
                else resolve_loop fuel (rest ++ [p]) frontier queue
            | none => resolve_loop fuel rest (frontier ++ [q]) queue) := by
        rw [resolve_loop, hpop]
      rw [hreach]
      cases hpar : q.parent with
      | none =>
        have hstep2 : resolve_loop (fuel + 1) heap frontier queue =
            resolve_loop fuel rest (frontier ++ [q]) queue := by
          rw [hstep, hpar]
        have hsz2 : heapSize rest ≤ fuel := by
          rw [hsizeQ, size_parent_none hpar] at hsz
          omega
        have hreach2 : heapReach (q :: rest) =
            insert q.qid (heapReach rest) := by
          rw [heapReach_cons, nodes_parent_none hpar]
          rw [Finset.insert_eq]
          simp
        have hlt2 : ∀ i ∈ heapReach rest, i < q.qid :=
          heapReach_lt_of_roots hmono
            (fun h hh => ⟨hrest_mem h hh, hrest_lt h hh⟩)
        have hnotin : q.qid ∉ heapReach rest := fun hc =>
          absurd (hlt2 q.qid hc) (Nat.lt_irrefl q.qid)
        rw [hstep2, ih rest (frontier ++ [q]) queue hsz2
          (Inv_tail (Inv_perm hperm hInv)), hreach2,
          modsSpec_insert hqle hnotin hlt2,
          frontierSpec_insert hqle hnotin hlt2, hnodeq]
        simp [frontierOf_parent_none hpar, ownedModifier_parent_none hpar,
          Option.toList]
      | some pp =>
        cases pp with
        | Shared p =>
          have hpn : p ∈ parentsOf q := by
            rw [parentsOf_eq_shared hpar]
            exact List.mem_cons_self p []
          have hpq : p ∈ q.nodes := parents_mem_nodes q p hpn
          have hp0 : p ∈ q0.nodes := nodes_trans q0 q hq0 p hpq
          have hplt : p.qid < q.qid := hmono q hq0 p hpn
          cases hin : qubit_in_heap p rest with
          | true =>
            have hstep2 : resolve_loop (fuel + 1) heap frontier queue =
                resolve_loop fuel rest frontier queue := by
              rw [hstep, hpar]
              show (if qubit_in_heap p rest = true then
                  resolve_loop fuel rest frontier queue
                else resolve_loop fuel (rest ++ [p]) frontier queue) = _
              rw [if_pos hin]
            rcases qubit_in_heap_true_iff.mp hin with ⟨h, hh, hhid⟩
            have hhp : h = p := hco h (hrest_mem h hh) p hp0 hhid
            have hsz2 : heapSize rest ≤ fuel := by
              rw [hsizeQ, size_parent_shared hpar] at hsz
              have := Qubit.size_pos p
              omega
            have hsub : (p.nodes.map Qubit.qid).toFinset ⊆
                heapReach rest := by
              intro i hi
              have hi2 := List.mem_toFinset.mp hi
              rcases List.mem_map.mp hi2 with ⟨x, hx, rfl⟩
              apply mem_heapReach.mpr
              refine ⟨x, mem_heapNodes.mpr ⟨h, hh, ?_⟩, rfl⟩
              rw [hhp]
              exact hx
            have hreach2 : heapReach (q :: rest) =
                insert q.qid (heapReach rest) := by
              rw [heapReach_cons, nodes_parent_shared hpar, List.map_cons,
                List.toFinset_cons, Finset.insert_union,
                Finset.union_eq_right.mpr hsub]
            have hlt2 : ∀ i ∈ heapReach rest, i < q.qid :=
              heapReach_lt_of_roots hmono
                (fun x hx => ⟨hrest_mem x hx, hrest_lt x hx⟩)
            have hnotin : q.qid ∉ heapReach rest := fun hc =>
              absurd (hlt2 q.qid hc) (Nat.lt_irrefl q.qid)
            rw [hstep2, ih rest frontier queue hsz2
              (Inv_tail (Inv_perm hperm hInv)), hreach2,
              modsSpec_insert hqle hnotin hlt2,
              frontierSpec_insert hqle hnotin hlt2, hnodeq]
            simp [frontierOf_parent_some hpar,
              ownedModifier_parent_shared hpar, Option.toList]
          | false =>
            have hstep2 : resolve_loop (fuel + 1) heap frontier queue =
                resolve_loop fuel (rest ++ [p]) frontier queue := by
              rw [hstep, hpar]
              show (if qubit_in_heap p rest = true then
                  resolve_loop fuel rest frontier queue
                else resolve_loop fuel (rest ++ [p]) frontier queue) = _
              rw [if_neg (by simp [hin])]
            have hnotid : ∀ x ∈ rest, x.qid ≠ p.qid :=
              qubit_in_heap_false_iff.mp hin
            have hsz2 : heapSize (rest ++ [p]) ≤ fuel := by
              rw [heapSize_append, heapSize_cons, heapSize_nil]
              rw [hsizeQ, size_parent_shared hpar] at hsz
              omega
            have hroots2 : ∀ x ∈ rest ++ [p],
                x ∈ q0.nodes ∧ x.qid < q.qid := by
              intro x hx
              rcases List.mem_append.mp hx with hx | hx
              · exact ⟨hrest_mem x hx, hrest_lt x hx⟩
              · rcases List.mem_cons.mp hx with hx | hx
                · subst hx
                  exact ⟨hp0, hplt⟩
                · exact absurd hx (List.not_mem_nil x)
            have hreach2 : heapReach (q :: rest) =
                insert q.qid (heapReach (rest ++ [p])) := by
              rw [heapReach_cons, nodes_parent_shared hpar, List.map_cons,
                List.toFinset_cons, Finset.insert_union, heapReach_append,
                heapReach_singleton, Finset.union_comm]
            have hlt2 : ∀ i ∈ heapReach (rest ++ [p]), i < q.qid :=
              heapReach_lt_of_roots hmono hroots2
            have hnotin : q.qid ∉ heapReach (rest ++ [p]) := fun hc =>
              absurd (hlt2 q.qid hc) (Nat.lt_irrefl q.qid)
            have hInv2 : Inv q0 (rest ++ [p]) := by
              obtain ⟨hn1, hn2, hn3⟩ := Inv_tail (Inv_perm hperm hInv)
              refine ⟨?_, ?_, ?_⟩
              · rw [List.map_append]
                apply List.Nodup.append hn1 (List.nodup_singleton p.qid)
                intro c hc1 hc2
                rcases List.mem_map.mp hc1 with ⟨x, hx, rfl⟩
                have hc := List.mem_singleton.mp hc2
                exact hnotid x hx hc
              · intro h hh
                rcases List.mem_append.mp hh with hh | hh
                · exact hn2 h hh
                · rcases List.mem_cons.mp hh with hh | hh
                  · subst hh; exact hp0
                  · exact absurd hh (List.not_mem_nil h)
              · intro x hx p2 hp2 hmem2
                have hxq : x ∈ heapNodes (q :: rest) := by
                  rw [heapNodes_cons]
                  rw [heapNodes_append, heapNodes_cons, heapNodes_nil,
                    List.append_nil] at hx
                  rcases List.mem_append.mp hx with hx | hx
                  · exact List.mem_append_right _ hx
                  · exact List.mem_append_left _
                      (nodes_trans q p hpq x hx)
                have hold : ¬(p2.qid ∈ (q :: rest).map Qubit.qid) :=
                  hEQ x hxq p2 hp2
                rw [List.map_append] at hmem2
                rcases List.mem_append.mp hmem2 with hm2 | hm2
                · apply hold
                  rw [List.map_cons]
                  exact List.mem_cons_of_mem _ hm2
                · have hc := List.mem_singleton.mp hm2
                  have hx0 : x ∈ q0.nodes := by
                    rcases mem_heapNodes.mp hxq with ⟨h, hh, hxh⟩
                    exact nodes_trans q0 h (hmemQ h hh) x hxh
                  have hp20 : p2 ∈ q0.nodes := by
                    apply nodes_trans q0 x hx0 p2
                    exact parents_mem_nodes x p2 (ownedParents_sub x p2 hp2)
                  have hp2p : p2 = p := hco p2 hp20 p hp0 hc
                  apply hshared3 q hq0 x hx0 p
                    (by rw [sharedParents_eq_shared hpar]
                        exact List.mem_cons_self p []) p2 hp2
                  rw [hp2p]
            rw [hstep2, ih (rest ++ [p]) frontier queue hsz2 hInv2, hreach2,
              modsSpec_insert hqle hnotin hlt2,
              frontierSpec_insert hqle hnotin hlt2, hnodeq]
            simp [frontierOf_parent_some hpar,
              ownedModifier_parent_shared hpar, Option.toList]
        | Owned ps mo =>
          have hparents : parentsOf q = ps.toList := parentsOf_eq_owned hpar
          have howne : ownedParents q = ps.toList :=
            ownedParents_eq_owned hpar
          have hps_mem : ∀ pw ∈ ps.toList, pw ∈ q0.nodes := by
            intro pw hpw
            apply nodes_trans q0 q hq0 pw
            apply parents_mem_nodes q pw
            rw [hparents]
            exact hpw
          have hps_lt : ∀ pw ∈ ps.toList, pw.qid < q.qid := by
            intro pw hpw
            apply hmono q hq0 pw
            rw [hparents]
            exact hpw
          have hsz2 : heapSize (rest ++ ps.toList) ≤ fuel := by
            rw [heapSize_append]
            have hsl := sizeL_toList ps
            rw [hsizeQ, size_parent_owned hpar] at hsz
            omega
          have hroots2 : ∀ x ∈ rest ++ ps.toList,
              x ∈ q0.nodes ∧ x.qid < q.qid := by
            intro x hx
            rcases List.mem_append.mp hx with hx | hx
            · exact ⟨hrest_mem x hx, hrest_lt x hx⟩
            · exact ⟨hps_mem x hx, hps_lt x hx⟩
          have hreach2 : heapReach (q :: rest) =
              insert q.qid (heapReach (rest ++ ps.toList)) := by
            rw [heapReach_cons, nodes_parent_owned hpar, List.map_cons,
              List.toFinset_cons, Finset.insert_union, heapReach_append]
            rw [nodesL_eq ps]
            rw [show (((ps.toList.map Qubit.nodes).flatten).map
                Qubit.qid).toFinset = heapReach ps.toList from rfl]
            rw [Finset.union_comm]
          have hlt2 : ∀ i ∈ heapReach (rest ++ ps.toList), i < q.qid :=
            heapReach_lt_of_roots hmono hroots2
          have hnotin : q.qid ∉ heapReach (rest ++ ps.toList) := fun hc =>
            absurd (hlt2 q.qid hc) (Nat.lt_irrefl q.qid)
          have hInv2 : Inv q0 (rest ++ ps.toList) := by
            obtain ⟨hn1, hn2, hn3⟩ := Inv_tail (Inv_perm hperm hInv)
            have hqinheap : q ∈ heapNodes (q :: rest) := by
              rw [heapNodes_cons]
              exact List.mem_append_left _ (Qubit.mem_nodes_self q)
            refine ⟨?_, ?_, ?_⟩
            · rw [List.map_append]
              apply List.Nodup.append hn1
              · have hn := hnodup3 q hq0
                rw [howne] at hn
                exact hn
              · intro c hc1 hc2
                rcases List.mem_map.mp hc1 with ⟨x, hx, rfl⟩
                rcases List.mem_map.mp hc2 with ⟨pw, hpw, hpwc⟩
                apply hEQ q hqinheap pw
                · rw [howne]
                  exact hpw
                · rw [List.map_cons, hpwc]
                  exact List.mem_cons_of_mem _ (List.mem_map.mpr ⟨x, hx, rfl⟩)
            · intro h hh
              rcases List.mem_append.mp hh with hh | hh
              · exact hn2 h hh
              · exact hps_mem h hh
            · intro x hx p2 hp2 hmem2
              have hxq : x ∈ heapNodes (q :: rest) := by
                rw [heapNodes_cons]
                rw [heapNodes_append] at hx
                rcases List.mem_append.mp hx with hx | hx
                · exact List.mem_append_right _ hx
                · rcases mem_heapNodes.mp hx with ⟨pw, hpw, hxpw⟩
                  apply List.mem_append_left
                  apply nodes_trans q pw _ x hxpw
                  apply parents_mem_nodes q pw
                  rw [hparents]
                  exact hpw
              have hold : ¬(p2.qid ∈ (q :: rest).map Qubit.qid) :=
                hEQ x hxq p2 hp2
              rw [List.map_append] at hmem2
              rcases List.mem_append.mp hmem2 with hm2 | hm2
              · apply hold
                rw [List.map_cons]
                exact List.mem_cons_of_mem _ hm2
              · rcases List.mem_map.mp hm2 with ⟨pw, hpw, hpwc⟩
                have hx0 : x ∈ q0.nodes := by
                  rcases mem_heapNodes.mp hxq with ⟨h, hh, hxh⟩
                  exact nodes_trans q0 h (hmemQ h hh) x hxh
                have hxeq : x = q := by
                  apply howned3 x hx0 q hq0 p2 hp2 pw
                  · rw [howne]
                    exact hpw
                  · exact hpwc.symm
                have hxin : x ∈ heapNodes (rest ++ ps.toList) := hx
                have hxlt : x.qid < q.qid := by
                  apply hlt2
                  exact mem_heapReach.mpr ⟨x, hxin, rfl⟩
                rw [hxeq] at hxlt
                exact absurd hxlt (Nat.lt_irrefl q.qid)
          cases mo with
          | none =>
            have hstep2 : resolve_loop (fuel + 1) heap frontier queue =
                resolve_loop fuel (rest ++ ps.toList) frontier queue := by
              rw [hstep, hpar]
            rw [hstep2,
              ih (rest ++ ps.toList) frontier queue hsz2 hInv2, hreach2,
              modsSpec_insert hqle hnotin hlt2,
              frontierSpec_insert hqle hnotin hlt2, hnodeq]
            simp [frontierOf_parent_some hpar,
              ownedModifier_parent_owned hpar, Option.toList]
          | some mm =>
            have hstep2 : resolve_loop (fuel + 1) heap frontier queue =
                resolve_loop fuel (rest ++ ps.toList) frontier
                  (mm :: queue) := by
              rw [hstep, hpar]
            rw [hstep2,
              ih (rest ++ ps.toList) frontier (mm :: queue) hsz2 hInv2,
              hreach2, modsSpec_insert hqle hnotin hlt2,
              frontierSpec_insert hqle hnotin hlt2, hnodeq]
            simp [frontierOf_parent_some hpar,
              ownedModifier_parent_owned hpar, Option.toList]


/-! ### Pipeline entry points -/

/-- Mirrors run_with_statebuilder: resolve, build the initial state from the
frontier, fold the ordered operations. -/
def run_with_statebuilder (ak : ApplyKernel) (mk : MeasureKernel)
    (q : Qubit) (state_builder : List Qubit -> LocalQuantumState) :
    LocalQuantumState × MeasuredResults :=
  let fo := get_opfns_and_frontier q
  let state := state_builder fo.1
  fo.2.foldl (fold_modify_state ak mk) (state, MeasuredResults.new)

/-- Mirrors run: builds a default all-zero state sized to the frontier. -/
def run (ak : ApplyKernel) (mk : MeasureKernel) (q : Qubit) :
    LocalQuantumState × MeasuredResults :=
  run_with_statebuilder ak mk q (fun qs =>
    LocalQuantumState.new ((qs.map (fun q2 => q2.indices.length)).sum))

/-- Mirrors run_with_init: builds the initial state from partial
initial-state entries, sized to the frontier. -/
def run_with_init (ak : ApplyKernel) (mk : MeasureKernel) (q : Qubit)
    (states : List QubitInitialState) :
    LocalQuantumState × MeasuredResults :=
  run_with_statebuilder ak mk q (fun qs =>
    new_from_initial_states ((qs.map (fun q2 => q2.indices.length)).sum)
      states)

/-- Mirrors run_local. -/
def run_local (ak : ApplyKernel) (mk : MeasureKernel) (q : Qubit) :
    LocalQuantumState × MeasuredResults :=
  run ak mk q

/-- Mirrors run_local_with_init. -/
def run_local_with_init (ak : ApplyKernel) (mk : MeasureKernel) (q : Qubit)
    (states : List QubitInitialState) :
    LocalQuantumState × MeasuredResults :=
  run_with_init ak mk q states

/-- C9: the three entry points differ only in how the initial state is
built; each one performs the identical left-fold of the resolved operation
sequence over the (state, record) pair. -/
theorem C9_entry_points_agree (ak : ApplyKernel) (mk : MeasureKernel)
    (q : Qubit) (states : List QubitInitialState)
    (sb : List Qubit -> LocalQuantumState) :
    (run ak mk q = run_with_statebuilder ak mk q (fun qs =>
      LocalQuantumState.new ((qs.map (fun q2 => q2.indices.length)).sum))) ∧
    (run_with_init ak mk q states = run_with_statebuilder ak mk q (fun qs =>
      new_from_initial_states ((qs.map (fun q2 => q2.indices.length)).sum)
        states)) ∧
    (run_with_statebuilder ak mk q sb =
      (get_opfns_and_frontier q).2.foldl (fold_modify_state ak mk)
        (sb (get_opfns_and_frontier q).1, MeasuredResults.new)) ∧
    (run_local ak mk q = run ak mk q) ∧
    (run_local_with_init ak mk q states = run_with_init ak mk q states) :=
  ⟨rfl, rfl, rfl, rfl, rfl⟩

/-- Whether a modifier is a measurement. -/
def StateModifier.is_measure (m : StateModifier) : Bool :=
  match m.modifier with
  | StateModifierType.MeasureState _ _ => true
  | StateModifierType.UnitaryOp _ => false

/-- Folding a measurement-free operation list does not depend on the
measurement kernel and leaves the record untouched. -/
theorem fold_no_measure (ak : ApplyKernel) (mk1 mk2 : MeasureKernel) :
    ∀ ops : List StateModifier, (∀ m ∈ ops, m.is_measure = false) ->
    ∀ (s : LocalQuantumState) (r : MeasuredResults),
      ops.foldl (fold_modify_state ak mk1) (s, r) =
        ops.foldl (fold_modify_state ak mk2) (s, r) ∧
      (ops.foldl (fold_modify_state ak mk1) (s, r)).2 = r := by
  intro ops
  induction ops with
  | nil => intro _ s r; exact ⟨rfl, rfl⟩
  | cons m ops ih =>
    intro h s r
    have hm := h m (List.mem_cons_self m ops)
    have hops : ∀ x ∈ ops, x.is_measure = false :=
      fun x hx => h x (List.mem_cons_of_mem m hx)
    rcases hmod : m.modifier with op | ⟨i, idx⟩
    · have hstep1 : fold_modify_state ak mk1 (s, r) m =
          (s.apply_op ak op, r) := by
        rw [fold_modify_state, hmod]
      have hstep2 : fold_modify_state ak mk2 (s, r) m =
          (s.apply_op ak op, r) := by
        rw [fold_modify_state, hmod]
      rw [List.foldl_cons, List.foldl_cons, hstep1, hstep2]
      exact ih hops (s.apply_op ak op) r
    · rw [StateModifier.is_measure, hmod] at hm
      simp at hm

/-- C10: when the resolved operation sequence contains no measurement, the
pipeline is deterministic: runs with different measurement kernels (the
only randomness source) produce equal final states, and the measurement
record stays empty.  Covers run_local and run_local_with_init alike. -/
theorem C10_deterministic_without_measurement (ak : ApplyKernel)
    (mk1 mk2 : MeasureKernel) (q : Qubit)
    (states : List QubitInitialState)
    (h : ∀ m ∈ (get_opfns_and_frontier q).2, m.is_measure = false) :
    (run_local ak mk1 q = run_local ak mk2 q ∧
      (run_local ak mk1 q).2.results = []) ∧
    (run_local_with_init ak mk1 q states =
        run_local_with_init ak mk2 q states ∧
      (run_local_with_init ak mk1 q states).2.results = []) := by
  constructor
  · constructor
    · exact (fold_no_measure ak mk1 mk2 _ h _ _).1
    · have h2 := (fold_no_measure ak mk1 mk2 _ h
        (LocalQuantumState.new
          (((get_opfns_and_frontier q).1.map
            (fun q2 => q2.indices.length)).sum)) MeasuredResults.new).2
      exact congrArg MeasuredResults.results h2
  · constructor
    · exact (fold_no_measure ak mk1 mk2 _ h _ _).1
    · have h2 := (fold_no_measure ak mk1 mk2 _ h
        (new_from_initial_states
          (((get_opfns_and_frontier q).1.map
            (fun q2 => q2.indices.length)).sum) states)
        MeasuredResults.new).2
      exact congrArg MeasuredResults.results h2

/-- Trivial unitary kernel usable as a concrete instance: writes the arena
back unchanged. -/
def trivialAK : ApplyKernel := fun _ _ _ arena _ _ _ => arena

/-- Trivial collapse kernel: copies the state and reports outcome 0 with
probability 1. -/
def trivialMK : MeasureKernel := fun _ _ state _ _ _ => ((0, (1 : ℚ)), state)

/-- Second trivial collapse kernel, reporting a different outcome. -/
def trivialMK2 : MeasureKernel := fun _ _ state _ _ _ => ((1, (0 : ℚ)), state)

/-- Concrete one-gate chain: an origin qubit consumed by one unitary. -/
def chainOrigin : Qubit := Qubit.mk 0 [0] none

/-- Terminal of the one-gate chain. -/
def chainTip : Qubit :=
  Qubit.mk 1 [0]
    (some (Parent.Owned (Qubits.cons chainOrigin Qubits.nil)
      (some (StateModifier.new_unitary "u" (QubitOp.mk [0] [])))))

/-- Witness for C10 at a concrete measurement-free one-gate circuit and two
distinct measurement kernels. -/
theorem C10_deterministic_without_measurement_witness :
    (∀ m ∈ (get_opfns_and_frontier chainTip).2, m.is_measure = false) ∧
    ((run_local trivialAK trivialMK chainTip =
        run_local trivialAK trivialMK2 chainTip ∧
      (run_local trivialAK trivialMK chainTip).2.results = []) ∧
     (run_local_with_init trivialAK trivialMK chainTip
        [([0], InitialState.Index 1)] =
        run_local_with_init trivialAK trivialMK2 chainTip
          [([0], InitialState.Index 1)] ∧
      (run_local_with_init trivialAK trivialMK chainTip
        [([0], InitialState.Index 1)]).2.results = [])) :=
  ⟨by decide,
    C10_deterministic_without_measurement trivialAK trivialMK trivialMK2
      chainTip [([0], InitialState.Index 1)] (by decide)⟩

/-! ### The resolver characterization at the terminal handle -/

/-- Identifiers reachable from the terminal handle. -/
def reachIds (q0 : Qubit) : Finset Nat :=
  (q0.nodes.map Qubit.qid).toFinset

theorem Inv_init (q0 : Qubit)
    (hmono : ∀ x ∈ q0.nodes, ∀ p ∈ parentsOf x, p.qid < x.qid) :
    Inv q0 [q0] := by
  refine ⟨?_, ?_, ?_⟩
  · simp
  · intro h hh
    rcases List.mem_cons.mp hh with hh | hh
    · subst hh
      exact Qubit.mem_nodes_self _
    · exact absurd hh (List.not_mem_nil h)
  · intro x hx p hp hmem
    have hx0 : x ∈ q0.nodes := by
      rcases mem_heapNodes.mp hx with ⟨h, hh, hxh⟩
      rcases List.mem_cons.mp hh with hh | hh
      · subst hh
        exact hxh
      · exact absurd hh (List.not_mem_nil h)
    have hppar : p ∈ parentsOf x := ownedParents_sub x p hp
    have hplt : p.qid < x.qid := hmono x hx0 p hppar
    have hxle : x.qid ≤ q0.qid := node_id_le q0 hmono x hx0
    rcases List.mem_map.mp hmem with ⟨z, hz, hze⟩
    rcases List.mem_cons.mp hz with hz | hz
    · subst hz
      omega
    · exact absurd hz (List.not_mem_nil z)

/-- The resolver at the terminal handle returns exactly the specification
frontier and operation list over the reachable id set. -/
theorem get_opfns_and_frontier_spec (q0 : Qubit) (hWF : WF q0) :
    get_opfns_and_frontier q0 =
      (frontierSpec q0 (reachIds q0), modsSpec q0 (reachIds q0)) := by
  have hmono := hWF.2.1
  rw [get_opfns_and_frontier]
  have hsz : heapSize [q0] ≤ q0.size := by
    rw [heapSize_cons, heapSize_nil]
    omega
  rw [resolve_loop_spec q0 hWF q0.size [q0] [] [] hsz (Inv_init q0 hmono)]
  rw [heapReach_singleton]
  rw [show ((q0.nodes.map Qubit.qid).toFinset : Finset Nat) = reachIds q0
    from rfl]
  simp

/-- Sites (ids) of the reachable owned modifiers, in ascending order. -/
def modSites (q0 : Qubit) : List Nat :=
  ((List.range (q0.qid + 1)).filter
    (fun i => decide (i ∈ reachIds q0))).filter
    (fun i => ((nodeOf q0 i).bind ownedModifier).isSome)

/-- Ids strictly upstream of the handle with id j: everything reachable
from its parents. -/
def ancIds (q0 : Qubit) (j : Nat) : Finset Nat :=
  match nodeOf q0 j with
  | some x => heapReach (parentsOf x)
  | none => ∅

theorem filterMap_filter_isSome {α : Type} :
    ∀ (l : List Nat) (f : Nat → Option α),
      (l.filter (fun i => (f i).isSome)).filterMap f = l.filterMap f := by
  intro l f
  induction l with
  | nil => rfl
  | cons a t ih =>
    cases hf : f a with
    | none =>
      have h1 : ¬((fun i => (f i).isSome) a = true) := by simp [hf]
      have hfc : List.filter (fun i => (f i).isSome) (a :: t) =
          List.filter (fun i => (f i).isSome) t :=
        List.filter_cons_of_neg h1
      rw [hfc, ih, List.filterMap_cons, hf]
    | some b =>
      have h1 : ((fun i => (f i).isSome) a = true) := by simp [hf]
      have hfc : List.filter (fun i => (f i).isSome) (a :: t) =
          a :: List.filter (fun i => (f i).isSome) t :=
        List.filter_cons_of_pos h1
      rw [hfc, List.filterMap_cons, hf, List.filterMap_cons, hf, ih]

theorem length_filterMap_of_isSome {α : Type} :
    ∀ (l : List Nat) (f : Nat → Option α),
      (∀ a ∈ l, (f a).isSome) → (l.filterMap f).length = l.length := by
  intro l f
  induction l with
  | nil => intro _; rfl
  | cons a t ih =>
    intro h
    cases hf : f a with
    | none =>
      have := h a (List.mem_cons_self a t)
      rw [hf] at this
      simp at this
    | some b =>
      rw [List.filterMap_cons, hf, List.length_cons,
        ih (fun x hx => h x (List.mem_cons_of_mem a hx)), List.length_cons]

theorem nodeOf_qid {q0 : Qubit} {i : Nat} {x : Qubit}
    (h : nodeOf q0 i = some x) : x.qid = i ∧ x ∈ q0.nodes := by
  rw [nodeOf] at h
  have h1 := List.find?_some h
  have h2 := List.mem_of_find?_eq_some h
  simp at h1
  exact ⟨h1, h2⟩

theorem modsSpec_eq_filterMap_modSites (q0 : Qubit) :
    modsSpec q0 (reachIds q0) =
      (modSites q0).filterMap (fun i => (nodeOf q0 i).bind ownedModifier) := by
  rw [modsSpec, modSites, filterMap_filter_isSome]

/-- C2: the resolver output enumerates, in ascending creation-order id of
their attachment sites, exactly the owned modifiers reachable from the
terminal handle; since everything upstream of a site has a strictly
smaller id, every operation appears after all operations it depends on,
and in a linear chain the origin-side modifier comes first and the
terminal-side modifier last. -/
theorem C2_resolver_completeness_and_order (q0 : Qubit) (hWF : WF q0) :
    ((get_opfns_and_frontier q0).2 =
      (modSites q0).filterMap
        (fun i => (nodeOf q0 i).bind ownedModifier)) ∧
    (modSites q0).Pairwise (fun a b => a < b) ∧
    (∀ x ∈ q0.nodes, ∀ m, ownedModifier x = some m →
      x.qid ∈ modSites q0) ∧
    ((get_opfns_and_frontier q0).2.length = (modSites q0).length) ∧
    (∀ j ∈ modSites q0, ∀ i ∈ ancIds q0 j, i < j) := by
  obtain ⟨hco, hmono, hrest⟩ := hWF
  have hops : (get_opfns_and_frontier q0).2 =
      (modSites q0).filterMap (fun i => (nodeOf q0 i).bind ownedModifier) := by
    rw [get_opfns_and_frontier_spec q0 ⟨hco, hmono, hrest⟩]
    exact modsSpec_eq_filterMap_modSites q0
  refine ⟨hops, ?_, ?_, ?_, ?_⟩
  · apply List.Pairwise.filter
    apply List.Pairwise.filter
    exact List.pairwise_lt_range (q0.qid + 1)
  · intro x hx m hm
    rw [modSites]
    apply List.mem_filter.mpr
    constructor
    · apply List.mem_filter.mpr
      constructor
      · apply List.mem_range.mpr
        have := node_id_le q0 hmono x hx
        omega
      · simp only [decide_eq_true_eq]
        rw [reachIds]
        exact List.mem_toFinset.mpr (List.mem_map.mpr ⟨x, hx, rfl⟩)
    · rw [nodeOf_eq_self hco hx]
      simp [hm]
  · rw [hops]
    apply length_filterMap_of_isSome
    intro a ha
    rw [modSites] at ha
    exact (List.mem_filter.mp ha).2
  · intro j hj i hi
    rw [modSites] at hj
    have hj2 := (List.mem_filter.mp hj).2
    cases hno : nodeOf q0 j with
    | none =>
      rw [hno] at hj2
      simp at hj2
    | some x =>
      rcases nodeOf_qid hno with ⟨hxq, hx0⟩
      rw [ancIds, hno] at hi
      have hpm : ∀ p ∈ parentsOf x, p ∈ q0.nodes := by
        intro p hp
        exact nodes_trans q0 x hx0 p (parents_mem_nodes x p hp)
      rcases heapReach_bound hmono hpm i hi with ⟨p, hp, hle⟩
      have := hmono x hx0 p hp
      omega

/-- Three-handle linear chain: origin, then two owned modifiers. -/
def chainTip2 : Qubit :=
  Qubit.mk 2 [0]
    (some (Parent.Owned (Qubits.cons chainTip Qubits.nil)
      (some (StateModifier.new_unitary "v" (QubitOp.mk [0] [])))))

/-- Witness for C2 on a linear two-gate chain; the extra last conjunct
exhibits the concrete order: origin-side modifier first, terminal-side
modifier last. -/
theorem C2_resolver_completeness_and_order_witness :
    WF chainTip2 ∧
    (((get_opfns_and_frontier chainTip2).2 =
      (modSites chainTip2).filterMap
        (fun i => (nodeOf chainTip2 i).bind ownedModifier)) ∧
    (modSites chainTip2).Pairwise (fun a b => a < b) ∧
    (∀ x ∈ chainTip2.nodes, ∀ m, ownedModifier x = some m →
      x.qid ∈ modSites chainTip2) ∧
    ((get_opfns_and_frontier chainTip2).2.length =
      (modSites chainTip2).length) ∧
    (∀ j ∈ modSites chainTip2, ∀ i ∈ ancIds chainTip2 j, i < j)) ∧
    ((get_opfns_and_frontier chainTip2).2.map StateModifier.name =
      ["u", "v"]) :=
  ⟨by
    simp [WF, chainTip2, chainTip, chainOrigin, Qubit.nodes, Qubits.nodesL,
      parentsOf, ownedParents, sharedParents, Qubit.parent, Qubit.qid,
      Qubits.toList, StateModifier.new_unitary],
   C2_resolver_completeness_and_order chainTip2
    (by
      simp [WF, chainTip2, chainTip, chainOrigin, Qubit.nodes,
        Qubits.nodesL, parentsOf, ownedParents, sharedParents, Qubit.parent,
        Qubit.qid, Qubits.toList, StateModifier.new_unitary]),
   by decide⟩

/-- Counting in a filterMap image of an injectively mapped duplicate-free
list: each produced value occurs exactly once. -/
theorem count_filterMap_inj {α : Type} [DecidableEq α] :
    ∀ (l : List Nat) (f : Nat → Option α), l.Nodup →
    (∀ i ∈ l, ∀ j ∈ l, f i = f j → i = j) →
    ∀ i ∈ l, ∀ m, f i = some m → (l.filterMap f).count m = 1 := by
  intro l f
  induction l with
  | nil =>
    intro _ _ i hi
    exact absurd hi (List.not_mem_nil i)
  | cons a t ih =>
    intro hnd hinj i hi m hfi
    have hnd2 := (List.nodup_cons.mp hnd).2
    have hanot := (List.nodup_cons.mp hnd).1
    have hinj2 : ∀ x ∈ t, ∀ y ∈ t, f x = f y → x = y :=
      fun x hx y hy => hinj x (List.mem_cons_of_mem a hx) y
        (List.mem_cons_of_mem a hy)
    rcases List.mem_cons.mp hi with hia | hit
    · subst hia
      rw [List.filterMap_cons, hfi]
      have hnotm : ¬(m ∈ t.filterMap f) := by
        intro hc
        rcases List.mem_filterMap.mp hc with ⟨j, hj, hfj⟩
        have : i = j := by
          apply hinj i (List.mem_cons_self i t) j
            (List.mem_cons_of_mem i hj)
          rw [hfi, hfj]
        subst this
        exact hanot hj
      rw [List.count_cons_self, List.count_eq_zero.mpr hnotm]
    · cases hfa : f a with
      | none =>
        rw [List.filterMap_cons, hfa]
        exact ih hnd2 hinj2 i hit m hfi
      | some b =>
        have hbm : b ≠ m := by
          intro hc
          subst hc
          have : a = i := by
            apply hinj a (List.mem_cons_self a t) i
              (List.mem_cons_of_mem a hit)
            rw [hfa, hfi]
          subst this
          exact hanot hit
        rw [List.filterMap_cons, hfa]
        rw [List.count_cons_of_ne (Ne.symm hbm)]
        exact ih hnd2 hinj2 i hit m hfi

/-- Mapping ids over a filterMap whose produced handles carry the site id
preserves freedom from duplicates. -/
theorem nodup_map_qid_filterMap (g : Nat → Option Qubit)
    (hg : ∀ i x, g i = some x → x.qid = i) :
    ∀ l : List Nat, l.Nodup → ((l.filterMap g).map Qubit.qid).Nodup := by
  intro l
  induction l with
  | nil => intro _; simp
  | cons a t ih =>
    intro hnd
    have hnd2 := (List.nodup_cons.mp hnd).2
    have hanot := (List.nodup_cons.mp hnd).1
    cases hga : g a with
    | none =>
      rw [List.filterMap_cons, hga]
      exact ih hnd2
    | some x =>
      rw [List.filterMap_cons, hga, List.map_cons]
      apply List.nodup_cons.mpr
      refine ⟨?_, ih hnd2⟩
      intro hc
      rcases List.mem_map.mp hc with ⟨y, hy, hye⟩
      rcases List.mem_filterMap.mp hy with ⟨j, hj, hgj⟩
      have h1 : y.qid = j := hg j y hgj
      have h2 : x.qid = a := hg a x hga
      have : a = j := by omega
      subst this
      exact hanot hj

theorem frontierOf_qid {q0 : Qubit} {i : Nat} {x : Qubit}
    (h : (nodeOf q0 i).bind frontierOf = some x) : x.qid = i := by
  cases hno : nodeOf q0 i with
  | none =>
    rw [hno] at h
    simp at h
  | some y =>
    rw [hno] at h
    simp only [Option.some_bind] at h
    rcases nodeOf_qid hno with ⟨hyq, _⟩
    rw [frontierOf] at h
    cases hp : y.parent with
    | none =>
      rw [hp] at h
      have : y = x := by
        simpa using h
      rw [← this]
      exact hyq
    | some pp =>
      rw [hp] at h
      simp at h

/-- C3: in a well-formed graph with a handle shared by two distinct
descendants, the resolver still enumerates each owned edge's modifier from
a duplicate-free ascending list of sites, so (under pairwise-distinct
modifier values) every owned modifier occurs exactly once in the output,
and every origin — the shared one included — appears exactly once in the
frontier.  The dedup is by handle identity (creation-order id). -/
theorem C3_shared_qubit_dedup (q0 : Qubit) (hWF : WF q0)
    (hsh : ∃ x ∈ q0.nodes, ∃ y ∈ q0.nodes, ∃ p ∈ sharedParents x,
      ∃ r ∈ sharedParents y, ¬(x = y) ∧ p.qid = r.qid)
    (hdist : ∀ i ∈ modSites q0, ∀ j ∈ modSites q0,
      (nodeOf q0 i).bind ownedModifier = (nodeOf q0 j).bind ownedModifier →
      i = j) :
    ((get_opfns_and_frontier q0).2 =
      (modSites q0).filterMap
        (fun i => (nodeOf q0 i).bind ownedModifier)) ∧
    (modSites q0).Nodup ∧
    (∀ i ∈ modSites q0, ∀ m,
      (nodeOf q0 i).bind ownedModifier = some m →
      (get_opfns_and_frontier q0).2.count m = 1) ∧
    ((get_opfns_and_frontier q0).1.map Qubit.qid).Nodup := by
  have hops : (get_opfns_and_frontier q0).2 =
      (modSites q0).filterMap (fun i => (nodeOf q0 i).bind ownedModifier) := by
    rw [get_opfns_and_frontier_spec q0 hWF]
    exact modsSpec_eq_filterMap_modSites q0
  have hnd : (modSites q0).Nodup := by
    apply List.Nodup.filter
    apply List.Nodup.filter
    exact List.nodup_range (q0.qid + 1)
  refine ⟨hops, hnd, ?_, ?_⟩
  · intro i hi m hm
    rw [hops]
    exact count_filterMap_inj (modSites q0) _ hnd hdist i hi m hm
  · rw [get_opfns_and_frontier_spec q0 hWF]
    rw [show (frontierSpec q0 (reachIds q0), modsSpec q0 (reachIds q0)).1 =
      frontierSpec q0 (reachIds q0) from rfl]
    rw [frontierSpec]
    apply nodup_map_qid_filterMap
    · intro i x hx
      exact frontierOf_qid hx
    · apply List.nodup_reverse.mpr
      apply List.Nodup.filter
      exact List.nodup_range (q0.qid + 1)

/-- Diamond fixture: a base handle aliased by two shared handles, each
consumed by its own modifier, merged by a terminal modifier. -/
def dBase : Qubit := Qubit.mk 0 [0] none

def dShare1 : Qubit := Qubit.mk 1 [0] (some (Parent.Shared dBase))

def dShare2 : Qubit := Qubit.mk 2 [0] (some (Parent.Shared dBase))

def dMid1 : Qubit :=
  Qubit.mk 3 [0]
    (some (Parent.Owned (Qubits.cons dShare1 Qubits.nil)
      (some (StateModifier.new_unitary "op1" (QubitOp.mk [0] [])))))

def dMid2 : Qubit :=
  Qubit.mk 4 [0]
    (some (Parent.Owned (Qubits.cons dShare2 Qubits.nil)
      (some (StateModifier.new_unitary "op2" (QubitOp.mk [0] [])))))

def dTip : Qubit :=
  Qubit.mk 5 [0]
    (some (Parent.Owned (Qubits.cons dMid1 (Qubits.cons dMid2 Qubits.nil))
      (some (StateModifier.new_unitary "op3" (QubitOp.mk [0] [])))))

/-- Witness for C3 on the diamond: the base is shared by two distinct
descendants, all hypotheses hold concretely, and the extra last conjunct
counts each modifier exactly once in the concrete output with the shared
base appearing once in the frontier. -/
theorem C3_shared_qubit_dedup_witness :
    (WF dTip ∧
     (∃ x ∈ dTip.nodes, ∃ y ∈ dTip.nodes, ∃ p ∈ sharedParents x,
       ∃ r ∈ sharedParents y, ¬(x = y) ∧ p.qid = r.qid) ∧
     (∀ i ∈ modSites dTip, ∀ j ∈ modSites dTip,
       (nodeOf dTip i).bind ownedModifier =
         (nodeOf dTip j).bind ownedModifier → i = j)) ∧
    (((get_opfns_and_frontier dTip).2 =
      (modSites dTip).filterMap
        (fun i => (nodeOf dTip i).bind ownedModifier)) ∧
     (modSites dTip).Nodup ∧
     (∀ i ∈ modSites dTip, ∀ m,
       (nodeOf dTip i).bind ownedModifier = some m →
       (get_opfns_and_frontier dTip).2.count m = 1) ∧
     ((get_opfns_and_frontier dTip).1.map Qubit.qid).Nodup) ∧
    ((get_opfns_and_frontier dTip).2.map StateModifier.name =
        ["op1", "op2", "op3"] ∧
      (get_opfns_and_frontier dTip).1.map Qubit.qid = [0]) := by
  have hwf : WF dTip := by
    simp [WF, dTip, dMid1, dMid2, dShare1, dShare2, dBase, Qubit.nodes,
      Qubits.nodesL, parentsOf, ownedParents, sharedParents, Qubit.parent,
      Qubit.qid, Qubits.toList, StateModifier.new_unitary]
  have hsh : ∃ x ∈ dTip.nodes, ∃ y ∈ dTip.nodes, ∃ p ∈ sharedParents x,
      ∃ r ∈ sharedParents y, ¬(x = y) ∧ p.qid = r.qid := by
    refine ⟨dShare1, ?_, dShare2, ?_, dBase, ?_, dBase, ?_, ?_, rfl⟩
    · simp [dTip, dMid1, dMid2, dShare1, dShare2, dBase, Qubit.nodes,
        Qubits.nodesL]
    · simp [dTip, dMid1, dMid2, dShare1, dShare2, dBase, Qubit.nodes,
        Qubits.nodesL]
    · simp [dShare1, dBase, sharedParents, Qubit.parent]
    · simp [dShare2, dBase, sharedParents, Qubit.parent]
    · simp [dShare1, dShare2, dBase]
  have hdist : ∀ i ∈ modSites dTip, ∀ j ∈ modSites dTip,
      (nodeOf dTip i).bind ownedModifier =
        (nodeOf dTip j).bind ownedModifier → i = j := by decide
  exact ⟨⟨hwf, hsh, hdist⟩,
    C3_shared_qubit_dedup dTip hwf hsh hdist, by decide, by decide⟩

/-! ### The matrix extractor -/

/-- Mirrors make_circuit_matrix: run the pipeline once per basis input and
collect the resulting amplitude vectors. -/
def make_circuit_matrix (ak : ApplyKernel) (mk : MeasureKernel) (n : Nat)
    (q : Qubit) (natural_order : Bool) : List (List Cplx) :=
  let indices : List Nat := List.range n
  (List.range (1 <<< n)).map (fun i =>
    let indx := if natural_order then i else flip_bits n i
    let state := (run_local_with_init ak mk q
      [(indices, InitialState.Index indx)]).1
    (List.range state.state.length).map (fun j =>
      let indx2 := if natural_order then flip_bits n j else j
      state.state.getD indx2 0))

/-- The 2 to the n dimensional identity matrix: amplitude 1 on the
diagonal, 0 elsewhere. -/
def idMatrix (n : Nat) : List (List Cplx) :=
  (List.range (2 ^ n)).map (fun i =>
    (List.range (2 ^ n)).map (fun j => if i = j then 1 else 0))

theorem one_shiftLeft_eq (n : Nat) : 1 <<< n = 2 ^ n := by
  rw [Nat.shiftLeft_eq, Nat.one_mul]

theorem range_maxQ {n : Nat} (hn : 1 ≤ n) :
    (List.range n).max? = some (n - 1) := by
  apply (List.max?_eq_some_iff (fun a => Nat.le_refl a) max_choice
    (fun a b c => max_le_iff)).mpr
  constructor
  · exact List.mem_range.mpr (by omega)
  · intro b hb
    have := List.mem_range.mp hb
    omega

theorem getD_set_replicate {L a b : Nat} (x z : Cplx) (hb : b < L) :
    (((List.replicate L z).set a x).getD b z) =
      if b = a then x else z := by
  have hlen : ((List.replicate L z).set a x).length = L := by
    rw [List.length_set, List.length_replicate]
  rcases em (b = a) with hba | hba
  · subst hba
    rw [if_pos rfl, List.getD_eq_getElem _ _ (by omega)]
    rw [List.getElem_set_self]
  · rw [if_neg hba, List.getD_eq_getElem _ _ (by omega)]
    rw [List.getElem_set_ne (fun hc => hba hc.symm)]
    rw [List.getElem_replicate]

/-- Building a state from a single classical-index entry over the first n
qubits, state component: one amplitude set at the bit-reflected index. -/
theorem init_index_only_state {m n v : Nat} (hn : 1 ≤ n) (hm : m ≤ n) :
    (new_from_initial_states m
      [(List.range n, InitialState.Index v)]).state =
      (List.replicate (2 ^ n) (0 : Cplx)).set (flip_bits n v) 1 := by
  have hwid : widened_n m [(List.range n, InitialState.Index v)] = n := by
    rw [widened_n]
    have hfl : (([(List.range n, InitialState.Index v)].map
        Prod.fst).flatten) = List.range n := by
      simp
    rw [hfl, range_maxQ hn]
    show max m (n - 1 + 1) = n
    have hs : n - 1 + 1 = n := by omega
    rw [hs]
    exact Nat.max_eq_right hm
  have htmp : init_template n [(List.range n, InitialState.Index v)] =
      flip_bits n v := by
    rw [init_template]
    show sub_to_full n (List.range n) v 0 = flip_bits n v
    rw [sub_to_full_eq_place, flip_bits]
    omega
  show (List.replicate
      (1 <<< widened_n m [(List.range n, InitialState.Index v)])
      (0 : Cplx)).set
      (0 + init_template (widened_n m [(List.range n, InitialState.Index v)])
        [(List.range n, InitialState.Index v)]) 1 =
    (List.replicate (2 ^ n) (0 : Cplx)).set (flip_bits n v) 1
  rw [hwid, htmp, one_shiftLeft_eq, Nat.zero_add]

/-- Qubit-count component of the same construction. -/
theorem init_index_only_n {m n v : Nat} (hn : 1 ≤ n) (hm : m ≤ n) :
    (new_from_initial_states m
      [(List.range n, InitialState.Index v)]).n = n := by
  show widened_n m [(List.range n, InitialState.Index v)] = n
  rw [widened_n]
  have hfl : (([(List.range n, InitialState.Index v)].map
      Prod.fst).flatten) = List.range n := by
    simp
  rw [hfl, range_maxQ hn]
  show max m (n - 1 + 1) = n
  have hs : n - 1 + 1 = n := by omega
  rw [hs]
  exact Nat.max_eq_right hm

/-- C4, amended: the matrix extractor on an operation-free circuit whose
frontier spans at most n qubits returns the 2 to the n identity matrix,
for n in one, two, three and either ordering flag. -/
theorem C4_identity_circuit_matrix (ak : ApplyKernel) (mk : MeasureKernel)
    (n : Nat) (q : Qubit) (natural_order : Bool)
    (hn : n = 1 ∨ n = 2 ∨ n = 3)
    (hops : (get_opfns_and_frontier q).2 = [])
    (hwid : (((get_opfns_and_frontier q).1.map
      (fun h => h.indices.length)).sum) ≤ n) :
    make_circuit_matrix ak mk n q natural_order = idMatrix n := by
  have hn1 : 1 ≤ n := by omega
  have hrun : ∀ v, (run_local_with_init ak mk q
      [(List.range n, InitialState.Index v)]).1 =
      new_from_initial_states
        (((get_opfns_and_frontier q).1.map
          (fun q2 => q2.indices.length)).sum)
        [(List.range n, InitialState.Index v)] := by
    intro v
    rw [run_local_with_init, run_with_init, run_with_statebuilder]
    rw [show (get_opfns_and_frontier q).2.foldl
        (fold_modify_state ak mk)
        (new_from_initial_states
          (((get_opfns_and_frontier q).1.map
            (fun q2 => q2.indices.length)).sum)
          [(List.range n, InitialState.Index v)], MeasuredResults.new) =
        [].foldl (fold_modify_state ak mk)
        (new_from_initial_states
          (((get_opfns_and_frontier q).1.map
            (fun q2 => q2.indices.length)).sum)
          [(List.range n, InitialState.Index v)], MeasuredResults.new)
      from by rw [hops]]
    rfl
  rw [make_circuit_matrix, idMatrix, one_shiftLeft_eq]
  apply List.map_congr_left
  intro i hi
  have hilt : i < 2 ^ n := List.mem_range.mp hi
  set indx := if natural_order then i else flip_bits n i with hindx
  have hindxlt : indx < 2 ^ n := by
    rw [hindx]
    cases natural_order with
    | true => simpa using hilt
    | false =>
      simp only [if_neg Bool.false_ne_true]
      exact flip_bits_lt n i
  dsimp only
  rw [hrun indx, init_index_only_state hn1 hwid]
  have hlen : (((List.replicate (2 ^ n) (0 : Cplx)).set
      (flip_bits n indx) 1)).length = 2 ^ n := by
    rw [List.length_set, List.length_replicate]
  rw [hlen]
  apply List.map_congr_left
  intro j hj
  have hjlt : j < 2 ^ n := List.mem_range.mp hj
  cases natural_order with
  | true =>
    have hindx2 : indx = i := by
      rw [hindx]
      simp
    rw [if_pos rfl, hindx2, getD_set_replicate _ _ (flip_bits_lt n j)]
    rcases em (i = j) with hij | hij
    · subst hij
      simp
    · rw [if_neg hij, if_neg (fun hc : flip_bits n j = flip_bits n i =>
        hij (flip_bits_injective hilt hjlt hc.symm))]
  | false =>
    have hindx2 : indx = flip_bits n i := by
      rw [hindx]
      simp
    rw [if_neg Bool.false_ne_true, hindx2,
      getD_set_replicate _ _ hjlt, flip_bits_flip_bits hilt]
    rcases em (i = j) with hij | hij
    · subst hij
      simp
    · rw [if_neg hij, if_neg (fun hc : j = i => hij hc.symm)]

/-- Origin handle spanning a single qubit, the well-formed instance for the
amended C4. -/
def qSingle : Qubit := Qubit.mk 0 [0] none

/-- Witness for the amended C4 at n = 1 over a single-qubit identity
circuit, internal ordering. -/
theorem C4_identity_circuit_matrix_witness :
    ((1 = 1 ∨ 1 = 2 ∨ 1 = 3) ∧
     (get_opfns_and_frontier qSingle).2 = [] ∧
     (((get_opfns_and_frontier qSingle).1.map
       (fun h => h.indices.length)).sum) ≤ 1) ∧
    make_circuit_matrix trivialAK trivialMK 1 qSingle false = idMatrix 1 :=
  ⟨⟨Or.inl rfl, by decide, by decide⟩,
    C4_identity_circuit_matrix trivialAK trivialMK 1 qSingle false
      (Or.inl rfl) (by decide) (by decide)⟩

/-- Two-qubit origin handle: an operation-free terminal whose frontier
spans two qubits. -/
def qWide : Qubit := Qubit.mk 0 [0, 1] none

/-! ### C1: the tensor-product guarantee of the initializer

The write loop of new_from_initial_states is characterized entry by entry:
every FullState entry contributes a slice of the combination number placed
at its qubit positions, every Index entry contributes a fixed placement to
the template, and the stored amplitude is the product of the selected
sub-state amplitudes. -/

/-- The FullState entries of a declaration list, in order. -/
def fullEntries (states : List QubitInitialState) :
    List (List Nat × List Cplx) :=
  states.filterMap (fun e => match e.2 with
    | InitialState.FullState vals => some (e.1, vals)
    | InitialState.Index _ => none)

/-- The Index entries of a declaration list, in order. -/
def indexEntries (states : List QubitInitialState) :
    List (List Nat × Nat) :=
  states.filterMap (fun e => match e.2 with
    | InitialState.Index v => some (e.1, v)
    | InitialState.FullState _ => none)

/-- Total sub-state dimension of a list of FullState entries. -/
def widthF : List (List Nat × List Cplx) → Nat
  | [] => 0
  | e :: t => e.1.length + widthF t

/-- Per-entry bit slices of the combination number i, starting at bit
offset off: each FullState entry receives the next block of bits of i. -/
def slicesF : List (List Nat × List Cplx) → Nat → Nat → List (List Nat × Nat)
  | [], _, _ => []
  | e :: t, off, i =>
      (e.1, (i >>> off) &&& ((1 <<< e.1.length) - 1)) ::
        slicesF t (off + e.1.length) i

/-- Sum of placements of each entry's value at its qubit positions. -/
def placeSum (n : Nat) : List (List Nat × Nat) → Nat
  | [] => 0
  | e :: t => place (qpos n e.1) e.2 + placeSum n t

/-- Running product of the selected amplitudes of the FullState entries. -/
def prodF : List (List Nat × List Cplx) → Nat → Nat → Cplx → Cplx
  | [], _, _, v => v
  | e :: t, off, i, v =>
      prodF t (off + e.1.length) i
        (v * e.2.getD ((i >>> off) &&& ((1 <<< e.1.length) - 1)) 0)

/-- Concatenated read-back of the per-entry sub-indices from a global
address: inverse of the placement of slices. -/
def readF (n : Nat) : List (List Nat × List Cplx) → Nat → Nat
  | [], _ => 0
  | e :: t, g => gather (qpos n e.1) g + (readF n t g) <<< e.1.length

/-- All internal bit positions covered by a list of index subsets. -/
def posAll (n : Nat) (idxss : List (List Nat)) : List Nat :=
  (idxss.map (qpos n)).flatten

/-- The internal positions of the index subsets are pairwise disjoint and
duplicate-free. -/
def GoodPos (n : Nat) (idxss : List (List Nat)) : Prop :=
  List.Pairwise (fun a b => ∀ t ∈ qpos n a, t ∉ qpos n b) idxss ∧
    ∀ l ∈ idxss, (qpos n l).Nodup

/-- Spec-side definition (section 3 of the specification): the tensor
amplitude at global basis index g, with qubit q living at bit n - 1 - q.
It vanishes unless every undeclared position carries bit 0 and every Index
entry matches its declared classical bits; otherwise it is the product over
the FullState entries of the amplitude selected by the bits of g at that
entry's positions. -/
def tensorAmp (n : Nat) (states : List QubitInitialState) (g : Nat) : Cplx :=
  if (∀ q < n, q ∉ (states.map Prod.fst).flatten →
        g.testBit (n - 1 - q) = false) ∧
      (∀ e ∈ indexEntries states, ∀ j < e.1.length,
        g.testBit (n - 1 - e.1.getD j 0) = e.2.testBit j)
  then (fullEntries states).foldl
    (fun a e => a * e.2.getD (gather (qpos n e.1) g) 0) 1
  else 0

/-- The per-entry combination step of the initializer fold, named. -/
def initStep (n i : Nat) (acc : Nat × Nat × Cplx) (e : QubitInitialState) :
    Nat × Nat × Cplx :=
  match e.2 with
  | InitialState.FullState vals =>
      let index_mask := (1 <<< e.1.length) - 1
      let val_index_bits := (i >>> acc.2.1) &&& index_mask
      let val_acc := acc.2.2 * vals.getD val_index_bits 0
      let superindex_delta := (e.1.enum.map
        (fun je => ((val_index_bits >>> je.1) &&& 1) <<< (n - 1 - je.2))).sum
      (acc.1 + superindex_delta, acc.2.1 + e.1.length, val_acc)
  | InitialState.Index _ => acc

theorem init_entry_fold_eq (n i : Nat) (states : List QubitInitialState) :
    init_entry_fold n i states = states.foldl (initStep n i) (0, 0, 1) := rfl

theorem fullEntries_cons_full (idxs : List Nat) (vals : List Cplx)
    (t : List QubitInitialState) :
    fullEntries ((idxs, InitialState.FullState vals) :: t)
      = (idxs, vals) :: fullEntries t := rfl

theorem fullEntries_cons_index (idxs : List Nat) (v : Nat)
    (t : List QubitInitialState) :
    fullEntries ((idxs, InitialState.Index v) :: t) = fullEntries t := rfl

theorem indexEntries_cons_full (idxs : List Nat) (vals : List Cplx)
    (t : List QubitInitialState) :
    indexEntries ((idxs, InitialState.FullState vals) :: t)
      = indexEntries t := rfl

theorem indexEntries_cons_index (idxs : List Nat) (v : Nat)
    (t : List QubitInitialState) :
    indexEntries ((idxs, InitialState.Index v) :: t)
      = (idxs, v) :: indexEntries t := rfl

/-- Characterization of the combination fold: offset delta, width and
amplitude product over the FullState entries. -/
theorem foldl_initStep (n i : Nat) : ∀ (states : List QubitInitialState)
    (si off : Nat) (v : Cplx),
    states.foldl (initStep n i) (si, off, v)
      = (si + placeSum n (slicesF (fullEntries states) off i),
         off + widthF (fullEntries states),
         prodF (fullEntries states) off i v) := by
  intro states
  induction states with
  | nil =>
    intro si off v
    simp [fullEntries, placeSum, slicesF, widthF, prodF]
  | cons e t ih =>
    intro si off v
    rcases e with ⟨idxs, st⟩
    cases st with
    | FullState vals =>
      rw [List.foldl_cons]
      have hstep : initStep n i (si, off, v) (idxs, InitialState.FullState vals)
          = (si + (idxs.enum.map (fun je =>
                ((((i >>> off) &&& ((1 <<< idxs.length) - 1)) >>> je.1) &&& 1)
                  <<< (n - 1 - je.2))).sum,
             off + idxs.length,
             v * vals.getD ((i >>> off) &&& ((1 <<< idxs.length) - 1)) 0) := rfl
      rw [hstep, enum_scatter_eq_place, ih, fullEntries_cons_full,
        Nat.add_assoc si, Nat.add_assoc off]
      rfl
    | Index w =>
      rw [List.foldl_cons]
      have hstep : initStep n i (si, off, v) (idxs, InitialState.Index w)
          = (si, off, v) := rfl
      rw [hstep, ih, fullEntries_cons_index]

/-- The combined FullState dimension agrees with widthF. -/
theorem n_fullindices_eq (states : List QubitInitialState) :
    n_fullindices states = widthF (fullEntries states) := by
  induction states with
  | nil => rfl
  | cons e t ih =>
    rcases e with ⟨idxs, st⟩
    cases st with
    | FullState vals =>
      rw [fullEntries_cons_full]
      show idxs.length + n_fullindices t = _
      rw [ih]
      rfl
    | Index w =>
      rw [fullEntries_cons_index]
      show 0 + n_fullindices t = _
      rw [Nat.zero_add, ih]

/-- The Index template is the placement sum over the Index entries. -/
theorem init_template_eq (n : Nat) (states : List QubitInitialState) :
    init_template n states = placeSum n (indexEntries states) := by
  have hgen : ∀ (l : List QubitInitialState) (acc : Nat),
      l.foldl (fun acc e => match e.2 with
        | InitialState.Index v => sub_to_full n e.1 v acc
        | InitialState.FullState _ => acc) acc
        = acc + placeSum n (indexEntries l) := by
    intro l
    induction l with
    | nil => intro acc; simp [indexEntries, placeSum]
    | cons e t ih =>
      intro acc
      rcases e with ⟨idxs, st⟩
      cases st with
      | FullState vals =>
        rw [List.foldl_cons, indexEntries_cons_full]
        exact ih acc
      | Index w =>
        rw [List.foldl_cons, indexEntries_cons_index]
        show t.foldl _ (sub_to_full n idxs w acc) = _
        rw [ih (sub_to_full n idxs w acc), sub_to_full_eq_place]
        show acc + place (qpos n idxs) w + placeSum n (indexEntries t)
          = acc + (place (qpos n idxs) w + placeSum n (indexEntries t))
        omega
  have h := hgen states 0
  rw [Nat.zero_add] at h
  exact h

/-- Slices only depend on the bits of i from the offset upward. -/
theorem slicesF_shift : ∀ (F : List (List Nat × List Cplx)) (off i : Nat),
    slicesF F off i = slicesF F 0 (i >>> off) := by
  intro F
  induction F with
  | nil => intro off i; rfl
  | cons e t ih =>
    intro off i
    show (e.1, (i >>> off) &&& _) :: slicesF t (off + e.1.length) i
      = (e.1, ((i >>> off) >>> 0) &&& _) :: slicesF t (0 + e.1.length) (i >>> off)
    rw [Nat.shiftRight_zero, ih (off + e.1.length) i,
      ih (0 + e.1.length) (i >>> off), Nat.zero_add, ← Nat.shiftRight_add]

/-- The amplitude product only depends on the bits of i from the offset
upward. -/
theorem prodF_shift : ∀ (F : List (List Nat × List Cplx)) (off i : Nat)
    (v : Cplx), prodF F off i v = prodF F 0 (i >>> off) v := by
  intro F
  induction F with
  | nil => intro off i v; rfl
  | cons e t ih =>
    intro off i v
    show prodF t (off + e.1.length) i (v * e.2.getD ((i >>> off) &&& _) 0)
      = prodF t (0 + e.1.length) (i >>> off)
          (v * e.2.getD (((i >>> off) >>> 0) &&& _) 0)
    rw [Nat.shiftRight_zero, ih (off + e.1.length) i,
      ih (0 + e.1.length) (i >>> off), Nat.zero_add, ← Nat.shiftRight_add]

/-! Bit-level facts about placement sums over disjoint position lists. -/

theorem and_mask_eq_mod (x len : Nat) :
    x &&& ((1 <<< len) - 1) = x % 2 ^ len := by
  rw [one_shiftLeft_eq]
  exact Nat.and_pow_two_sub_one_eq_mod x len

theorem add_shl_mask (a r len : Nat) (ha : a < 2 ^ len) :
    (a + r <<< len) &&& ((1 <<< len) - 1) = a := by
  rw [and_mask_eq_mod, Nat.shiftLeft_eq, Nat.add_mul_mod_self_right,
    Nat.mod_eq_of_lt ha]

theorem add_shl_shiftRight (a r len : Nat) (ha : a < 2 ^ len) :
    (a + r <<< len) >>> len = r := by
  rw [Nat.shiftLeft_eq, Nat.shiftRight_eq_div_pow,
    Nat.add_mul_div_right _ _ (Nat.two_pow_pos len), Nat.div_eq_of_lt ha,
    Nat.zero_add]

theorem length_qpos (n : Nat) (l : List Nat) :
    (qpos n l).length = l.length := by
  simp [qpos]

/-- A number whose set bits all sit where another number is zero conjoins
with it to zero. -/
theorem and_eq_zero_of_vanish {x y : Nat}
    (h : ∀ u, y.testBit u = true → x.testBit u = false) : x &&& y = 0 := by
  rw [Nat.and_comm]
  exact and_eq_zero_of_support (fun u hu => hu) h

theorem place_support {ps : List Nat} (hnd : ps.Nodup) (b : Nat) :
    ∀ u, (place ps b).testBit u = true → u ∈ ps := by
  intro u hu
  by_contra hc
  rw [testBit_place_of_not_mem hnd b u hc] at hu
  exact Bool.false_ne_true hu

theorem posAll_cons (n : Nat) (a : List Nat) (t : List (List Nat)) :
    posAll n (a :: t) = qpos n a ++ posAll n t := by
  simp [posAll]

theorem mem_posAll {n u : Nat} {idxss : List (List Nat)} :
    u ∈ posAll n idxss ↔ ∃ l, l ∈ idxss ∧ u ∈ qpos n l := by
  simp [posAll]

theorem GoodPos_cons {n : Nat} {a : List Nat} {t : List (List Nat)}
    (h : GoodPos n (a :: t)) :
    GoodPos n t ∧ (∀ l ∈ t, ∀ u ∈ qpos n a, u ∉ qpos n l) ∧
      (qpos n a).Nodup := by
  rcases h with ⟨hp, hnd⟩
  rw [List.pairwise_cons] at hp
  exact ⟨⟨hp.2, fun l hl => hnd l (List.mem_cons_of_mem a hl)⟩,
    hp.1, hnd a (List.mem_cons_self a t)⟩

/-- Support of a placement sum over disjoint duplicate-free positions. -/
theorem placeSum_support {n : Nat} : ∀ (L : List (List Nat × Nat)),
    GoodPos n (L.map Prod.fst) → ∀ u, (placeSum n L).testBit u = true →
      u ∈ posAll n (L.map Prod.fst) := by
  intro L
  induction L with
  | nil =>
    intro _ u hu
    simp [placeSum] at hu
  | cons e t ih =>
    intro hG u hu
    rw [List.map_cons] at hG ⊢
    obtain ⟨hGt, hdis, hnda⟩ := GoodPos_cons hG
    have hy : ∀ u2 ∈ qpos n e.1, (placeSum n t).testBit u2 = false := by
      intro u2 hu2
      cases hbit : (placeSum n t).testBit u2 with
      | false => rfl
      | true =>
        rcases mem_posAll.mp (ih hGt u2 hbit) with ⟨l, hl, hul⟩
        exact absurd hul (hdis l hl u2 hu2)
    have hand : place (qpos n e.1) e.2 &&& placeSum n t = 0 :=
      and_eq_zero_of_support (place_support hnda e.2) hy
    have hu2 : (place (qpos n e.1) e.2 + placeSum n t).testBit u = true := hu
    rw [testBit_add_of_and_eq_zero hand] at hu2
    rw [posAll_cons, List.mem_append]
    rcases Bool.or_eq_true_iff.mp hu2 with hb | hb
    · exact Or.inl (place_support hnda e.2 u hb)
    · exact Or.inr (ih hGt u hb)

/-- A placement sum vanishes outside its covered positions. -/
theorem placeSum_vanish {n : Nat} {L : List (List Nat × Nat)}
    (hG : GoodPos n (L.map Prod.fst)) {u : Nat}
    (hu : u ∉ posAll n (L.map Prod.fst)) :
    (placeSum n L).testBit u = false := by
  cases hbit : (placeSum n L).testBit u with
  | false => rfl
  | true => exact absurd (placeSum_support L hG u hbit) hu

/-- Reading one entry's bit out of an offset placement sum. -/
theorem placeSum_read {n : Nat} : ∀ (L : List (List Nat × Nat)),
    GoodPos n (L.map Prod.fst) →
    ∀ x, (∀ u ∈ posAll n (L.map Prod.fst), x.testBit u = false) →
    ∀ e ∈ L, ∀ j, ∀ hj : j < (qpos n e.1).length,
      (x + placeSum n L).testBit ((qpos n e.1).get ⟨j, hj⟩)
        = e.2.testBit j := by
  intro L
  induction L with
  | nil =>
    intro _ x _ e he
    exact absurd he (List.not_mem_nil e)
  | cons a t ih =>
    intro hG x hx e he j hj
    rw [List.map_cons] at hG hx
    obtain ⟨hGt, hdis, hnda⟩ := GoodPos_cons hG
    have hxa : ∀ u ∈ qpos n a.1, x.testBit u = false := by
      intro u hu
      exact hx u (by rw [posAll_cons, List.mem_append]; exact Or.inl hu)
    have hxt : ∀ u ∈ posAll n (t.map Prod.fst), x.testBit u = false := by
      intro u hu
      exact hx u (by rw [posAll_cons, List.mem_append]; exact Or.inr hu)
    have hrt : ∀ u2 ∈ qpos n a.1, (placeSum n t).testBit u2 = false := by
      intro u2 hu2
      apply placeSum_vanish hGt
      intro hc
      rcases mem_posAll.mp hc with ⟨l, hl, hul⟩
      exact absurd hul (hdis l hl u2 hu2)
    have hcast : x + placeSum n (a :: t)
        = x + (place (qpos n a.1) a.2 + placeSum n t) := rfl
    have hxpa : x &&& place (qpos n a.1) a.2 = 0 := and_eq_zero_of_vanish
      (fun u2 hu2 => hxa u2 (place_support hnda a.2 u2 hu2))
    have hpar : place (qpos n a.1) a.2 &&& placeSum n t = 0 :=
      and_eq_zero_of_support (place_support hnda a.2) hrt
    rcases List.mem_cons.mp he with rfl | het
    · have hu_mem : (qpos n e.1).get ⟨j, hj⟩ ∈ qpos n e.1 :=
        List.get_mem _ j hj
      have hxparest : x &&& (place (qpos n e.1) e.2 + placeSum n t) = 0 := by
        apply and_eq_zero_of_vanish
        intro u2 hu2
        rw [testBit_add_of_and_eq_zero hpar] at hu2
        rcases Bool.or_eq_true_iff.mp hu2 with hb | hb
        · exact hxa u2 (place_support hnda e.2 u2 hb)
        · exact hxt u2 (placeSum_support t hGt u2 hb)
      rw [hcast, testBit_add_of_and_eq_zero hxparest,
        testBit_add_of_and_eq_zero hpar, hxa _ hu_mem, hrt _ hu_mem,
        Bool.false_or, Bool.or_false, List.get_eq_getElem]
      exact testBit_place_get hnda e.2 j hj
    · have hx2 : ∀ u ∈ posAll n (t.map Prod.fst),
          (x + place (qpos n a.1) a.2).testBit u = false := by
        intro u hu
        rw [testBit_add_of_and_eq_zero hxpa, hxt u hu, Bool.false_or]
        apply testBit_place_of_not_mem hnda
        intro hc
        rcases mem_posAll.mp hu with ⟨l, hl, hul⟩
        exact absurd hul (hdis l hl u hc)
      have hres := ih hGt (x + place (qpos n a.1) a.2) hx2 e het j hj
      have hassoc : x + place (qpos n a.1) a.2 + placeSum n t
          = x + placeSum n (a :: t) := by
        rw [Nat.add_assoc]
        rfl
      rw [hassoc] at hres
      exact hres

/-- Gathering a placement plus noise away from the positions recovers the
scattered bits. -/
theorem gather_place_add {ps : List Nat} (hnd : ps.Nodup) (b y : Nat)
    (hy : ∀ u ∈ ps, y.testBit u = false) :
    gather ps (place ps b + y) = b % 2 ^ ps.length := by
  have hand : place ps b &&& y = 0 :=
    and_eq_zero_of_support (place_support hnd b) hy
  rw [← gather_place hnd b]
  apply gather_congr
  intro u hu
  rw [testBit_add_of_and_eq_zero hand, hy u hu, Bool.or_false]

theorem slicesF_fst : ∀ (F : List (List Nat × List Cplx)) (off i : Nat),
    (slicesF F off i).map Prod.fst = F.map Prod.fst := by
  intro F
  induction F with
  | nil => intro off i; rfl
  | cons e t ih =>
    intro off i
    show e.1 :: (slicesF t (off + e.1.length) i).map Prod.fst
      = e.1 :: t.map Prod.fst
    rw [ih]

/-- The concatenated read-back stays below the total width. -/
theorem readF_lt {n : Nat} : ∀ (F : List (List Nat × List Cplx)) (g : Nat),
    readF n F g < 2 ^ widthF F := by
  intro F
  induction F with
  | nil =>
    intro g
    show 0 < 2 ^ widthF []
    exact Nat.two_pow_pos _
  | cons e t ih =>
    intro g
    have h1 := gather_lt_two_pow (qpos n e.1) g
    rw [length_qpos] at h1
    have h2 := ih g
    show gather (qpos n e.1) g + (readF n t g) <<< e.1.length
      < 2 ^ (e.1.length + widthF t)
    rw [Nat.shiftLeft_eq, Nat.pow_add]
    calc gather (qpos n e.1) g + readF n t g * 2 ^ e.1.length
        < 2 ^ e.1.length + readF n t g * 2 ^ e.1.length := by omega
      _ = (readF n t g + 1) * 2 ^ e.1.length := by ring
      _ ≤ 2 ^ widthF t * 2 ^ e.1.length :=
          Nat.mul_le_mul_right _ (by omega)
      _ = 2 ^ e.1.length * 2 ^ widthF t := Nat.mul_comm _ _

/-- Decoding a write address recovers the combination number: the
read-back of noise plus placed slices is the sliced number itself. -/
theorem readF_decode {n : Nat} : ∀ (F : List (List Nat × List Cplx)),
    GoodPos n (F.map Prod.fst) →
    ∀ x, (∀ u ∈ posAll n (F.map Prod.fst), x.testBit u = false) →
    ∀ i, readF n F (x + placeSum n (slicesF F 0 i)) = i % 2 ^ widthF F := by
  intro F
  induction F with
  | nil =>
    intro _ x _ i
    show (0 : Nat) = i % 2 ^ 0
    rw [Nat.pow_zero, Nat.mod_one]
  | cons e t ih =>
    intro hG x hx i
    rw [List.map_cons] at hG hx
    obtain ⟨hGt, hdis, hnda⟩ := GoodPos_cons hG
    have hxa : ∀ u ∈ qpos n e.1, x.testBit u = false := by
      intro u hu
      exact hx u (by rw [posAll_cons, List.mem_append]; exact Or.inl hu)
    have hxt : ∀ u ∈ posAll n (t.map Prod.fst), x.testBit u = false := by
      intro u hu
      exact hx u (by rw [posAll_cons, List.mem_append]; exact Or.inr hu)
    have hs : slicesF (e :: t) 0 i
        = (e.1, i &&& ((1 <<< e.1.length) - 1))
            :: slicesF t 0 (i >>> e.1.length) := by
      show (e.1, (i >>> 0) &&& ((1 <<< e.1.length) - 1))
          :: slicesF t (0 + e.1.length) i = _
      rw [Nat.shiftRight_zero, Nat.zero_add, slicesF_shift]
    have hGs : GoodPos n ((slicesF t 0 (i >>> e.1.length)).map Prod.fst) := by
      rw [slicesF_fst]
      exact hGt
    have hrt : ∀ u ∈ qpos n e.1,
        (placeSum n (slicesF t 0 (i >>> e.1.length))).testBit u = false := by
      intro u hu
      apply placeSum_vanish hGs
      rw [slicesF_fst]
      intro hc
      rcases mem_posAll.mp hc with ⟨l, hl, hul⟩
      exact absurd hul (hdis l hl u hu)
    have hxr : x &&& placeSum n (slicesF t 0 (i >>> e.1.length)) = 0 :=
      and_eq_zero_of_vanish (fun u2 hu2 => hxt u2 (by
        have := placeSum_support _ hGs u2 hu2
        rwa [slicesF_fst] at this))
    have hb : i &&& ((1 <<< e.1.length) - 1) = i % 2 ^ e.1.length :=
      and_mask_eq_mod i e.1.length
    -- the whole address, regrouped so the head placement stands alone
    have hre : x + placeSum n (slicesF (e :: t) 0 i)
        = place (qpos n e.1) (i &&& ((1 <<< e.1.length) - 1))
          + (x + placeSum n (slicesF t 0 (i >>> e.1.length))) := by
      rw [hs]
      show x + (place (qpos n e.1) (i &&& ((1 <<< e.1.length) - 1))
        + placeSum n (slicesF t 0 (i >>> e.1.length))) = _
      omega
    have hyv : ∀ u ∈ qpos n e.1,
        (x + placeSum n (slicesF t 0 (i >>> e.1.length))).testBit u
          = false := by
      intro u hu
      rw [testBit_add_of_and_eq_zero hxr, hxa u hu, hrt u hu]
      rfl
    have hgath : gather (qpos n e.1) (x + placeSum n (slicesF (e :: t) 0 i))
        = i % 2 ^ e.1.length := by
      rw [hre, gather_place_add hnda _ _ hyv, length_qpos, hb]
      exact Nat.mod_eq_of_lt (Nat.mod_lt i (Nat.two_pow_pos e.1.length))
    have hxpa : x &&& place (qpos n e.1) (i &&& ((1 <<< e.1.length) - 1))
        = 0 := and_eq_zero_of_vanish
      (fun u2 hu2 => hxa u2 (place_support hnda _ u2 hu2))
    have hx2 : ∀ u ∈ posAll n (t.map Prod.fst),
        (x + place (qpos n e.1)
          (i &&& ((1 <<< e.1.length) - 1))).testBit u = false := by
      intro u hu
      rw [testBit_add_of_and_eq_zero hxpa, hxt u hu, Bool.false_or]
      apply testBit_place_of_not_mem hnda
      intro hc
      rcases mem_posAll.mp hu with ⟨l, hl, hul⟩
      exact absurd hul (hdis l hl u hc)
    have htail : readF n t (x + placeSum n (slicesF (e :: t) 0 i))
        = (i >>> e.1.length) % 2 ^ widthF t := by
      have h2 := ih hGt (x + place (qpos n e.1)
        (i &&& ((1 <<< e.1.length) - 1))) hx2 (i >>> e.1.length)
      have hre2 : x + place (qpos n e.1) (i &&& ((1 <<< e.1.length) - 1))
          + placeSum n (slicesF t 0 (i >>> e.1.length))
          = x + placeSum n (slicesF (e :: t) 0 i) := by
        rw [hs]
        show _ = x + (place (qpos n e.1) (i &&& ((1 <<< e.1.length) - 1))
          + placeSum n (slicesF t 0 (i >>> e.1.length)))
        omega
      rwa [hre2] at h2
    show gather (qpos n e.1) (x + placeSum n (slicesF (e :: t) 0 i))
      + (readF n t (x + placeSum n (slicesF (e :: t) 0 i))) <<< e.1.length
      = i % 2 ^ (e.1.length + widthF t)
    rw [hgath, htail, Nat.shiftLeft_eq, Nat.shiftRight_eq_div_pow,
      Nat.pow_add, Nat.mod_mul,
      Nat.mul_comm (2 ^ e.1.length) (i / 2 ^ e.1.length % 2 ^ widthF t)]

/-- Re-slicing a read-back recovers the per-entry gathers. -/
theorem slicesF_readF {n : Nat} : ∀ (F : List (List Nat × List Cplx))
    (g : Nat), slicesF F 0 (readF n F g)
      = F.map (fun e => (e.1, gather (qpos n e.1) g)) := by
  intro F
  induction F with
  | nil => intro g; rfl
  | cons e t ih =>
    intro g
    have hg1 := gather_lt_two_pow (qpos n e.1) g
    rw [length_qpos] at hg1
    have hr : readF n (e :: t) g
        = gather (qpos n e.1) g + (readF n t g) <<< e.1.length := rfl
    show (e.1, (readF n (e :: t) g >>> 0) &&& ((1 <<< e.1.length) - 1))
        :: slicesF t (0 + e.1.length) (readF n (e :: t) g) = _
    rw [Nat.shiftRight_zero, Nat.zero_add, slicesF_shift, hr,
      add_shl_mask _ _ _ hg1, add_shl_shiftRight _ _ _ hg1, ih g]
    rfl

/-- The amplitude product at a read-back address is the product of the
amplitudes selected by the per-entry gathers. -/
theorem prodF_readF {n : Nat} : ∀ (F : List (List Nat × List Cplx))
    (g : Nat) (v : Cplx),
    prodF F 0 (readF n F g) v
      = F.foldl (fun a e => a * e.2.getD (gather (qpos n e.1) g) 0) v := by
  intro F
  induction F with
  | nil => intro g v; rfl
  | cons e t ih =>
    intro g v
    have hg1 := gather_lt_two_pow (qpos n e.1) g
    rw [length_qpos] at hg1
    have hr : readF n (e :: t) g
        = gather (qpos n e.1) g + (readF n t g) <<< e.1.length := rfl
    show prodF t (0 + e.1.length) (readF n (e :: t) g)
        (v * e.2.getD ((readF n (e :: t) g >>> 0)
          &&& ((1 <<< e.1.length) - 1)) 0) = _
    rw [Nat.shiftRight_zero, Nat.zero_add, prodF_shift, hr,
      add_shl_mask _ _ _ hg1, add_shl_shiftRight _ _ _ hg1, ih g]
    rfl

/-- Placing back the gathered bits of g over its covered positions, on top
of noise that matches g away from them, reconstructs g. -/
theorem placeSum_gather_add {n : Nat} (F : List (List Nat × List Cplx))
    (hG : GoodPos n (F.map Prod.fst)) (x g : Nat)
    (hx : ∀ u ∈ posAll n (F.map Prod.fst), x.testBit u = false)
    (h1 : ∀ u, u ∉ posAll n (F.map Prod.fst) → x.testBit u = g.testBit u) :
    x + placeSum n (F.map (fun e => (e.1, gather (qpos n e.1) g))) = g := by
  have hfst : (F.map (fun e => (e.1, gather (qpos n e.1) g))).map Prod.fst
      = F.map Prod.fst := by
    rw [List.map_map]
    rfl
  have hGL : GoodPos n
      ((F.map (fun e => (e.1, gather (qpos n e.1) g))).map Prod.fst) := by
    rw [hfst]
    exact hG
  apply Nat.eq_of_testBit_eq
  intro u
  have hxps : x &&& placeSum n
      (F.map (fun e => (e.1, gather (qpos n e.1) g))) = 0 :=
    and_eq_zero_of_vanish (fun u2 hu2 => hx u2 (by
      have := placeSum_support _ hGL u2 hu2
      rwa [hfst] at this))
  rw [testBit_add_of_and_eq_zero hxps]
  by_cases hu : u ∈ posAll n (F.map Prod.fst)
  · rw [hx u hu, Bool.false_or]
    rcases mem_posAll.mp hu with ⟨l, hl, hul⟩
    rcases List.mem_map.mp hl with ⟨e, he, rfl⟩
    rcases List.getElem_of_mem hul with ⟨j, hj, hju⟩
    have hmemL : (e.1, gather (qpos n e.1) g)
        ∈ F.map (fun e => (e.1, gather (qpos n e.1) g)) :=
      List.mem_map.mpr ⟨e, he, rfl⟩
    have h0 : ∀ u2 ∈ posAll n
        ((F.map (fun e => (e.1, gather (qpos n e.1) g))).map Prod.fst),
        (0 : Nat).testBit u2 = false := by
      intro u2 _
      exact Nat.zero_testBit u2
    have hread := placeSum_read _ hGL 0 h0
      (e.1, gather (qpos n e.1) g) hmemL j hj
    rw [Nat.zero_add, List.get_eq_getElem] at hread
    rw [hju] at hread
    rw [hread, testBit_gather_lt _ _ j hj, hju]
  · rw [← h1 u hu, placeSum_vanish hGL (by rw [hfst]; exact hu),
      Bool.or_false]

/-- Every FullState record comes from a source entry. -/
theorem fullEntries_src {states : List QubitInitialState}
    {p : List Nat × List Cplx} (hp : p ∈ fullEntries states) :
    (p.1, InitialState.FullState p.2) ∈ states := by
  rcases List.mem_filterMap.mp hp with ⟨e, he, hfe⟩
  rcases e with ⟨idxs, st⟩
  cases st with
  | FullState vals =>
    have h2 : some ((idxs, vals) : List Nat × List Cplx) = some p := hfe
    have h3 := Option.some.inj h2
    rw [← h3]
    exact he
  | Index v =>
    have h2 : (none : Option (List Nat × List Cplx)) = some p := hfe
    exact absurd h2 (by simp)

/-- Every Index record comes from a source entry. -/
theorem indexEntries_src {states : List QubitInitialState}
    {p : List Nat × Nat} (hp : p ∈ indexEntries states) :
    (p.1, InitialState.Index p.2) ∈ states := by
  rcases List.mem_filterMap.mp hp with ⟨e, he, hfe⟩
  rcases e with ⟨idxs, st⟩
  cases st with
  | FullState vals =>
    have h2 : (none : Option (List Nat × Nat)) = some p := hfe
    exact absurd h2 (by simp)
  | Index v =>
    have h2 : some ((idxs, v) : List Nat × Nat) = some p := hfe
    have h3 := Option.some.inj h2
    rw [← h3]
    exact he

/-- Every referenced qubit index lies below the widened count. -/
theorem widened_lt (n : Nat) (states : List QubitInitialState) :
    ∀ e ∈ states, ∀ q ∈ e.1, q < widened_n n states := by
  intro e he q hq
  have hqf : q ∈ (states.map Prod.fst).flatten :=
    List.mem_flatten.mpr ⟨e.1, List.mem_map.mpr ⟨e, he, rfl⟩, hq⟩
  rw [widened_n]
  cases hmax : ((states.map Prod.fst).flatten).max? with
  | none =>
    rw [List.max?_eq_none_iff.mp hmax] at hqf
    exact absurd hqf (List.not_mem_nil q)
  | some m =>
    have hle := (List.max?_le_iff (fun a b c => max_le_iff) hmax).mp
      (Nat.le_refl m) q hqf
    exact Nat.lt_of_lt_of_le (Nat.lt_succ_of_le hle) (le_max_right n (m + 1))

/-- Disjoint index sets yield disjoint, duplicate-free position lists for
any fst-preserving selection of entries. -/
theorem GoodPos_of_pairwise {α : Type} {n : Nat}
    {states : List QubitInitialState}
    (hdis : List.Pairwise (fun e1 e2 => ∀ a ∈ e1.1, a ∉ e2.1) states)
    (hnd : ∀ e ∈ states, e.1.Nodup)
    (hlt : ∀ e ∈ states, ∀ q ∈ e.1, q < n)
    (f : QubitInitialState → Option (List Nat × α))
    (hf : ∀ e p, f e = some p → p.1 = e.1) :
    GoodPos n ((states.filterMap f).map Prod.fst) := by
  constructor
  · rw [List.pairwise_map, List.pairwise_filterMap]
    apply List.Pairwise.imp_of_mem _ hdis
    intro e1 e2 he1 he2 h12 p1 hp1 p2 hp2 u hu1 hu2
    rw [hf e1 p1 hp1] at hu1
    rw [hf e2 p2 hp2] at hu2
    rcases List.mem_map.mp hu1 with ⟨a, ha, hau⟩
    rcases List.mem_map.mp hu2 with ⟨b, hb, hbu⟩
    have ha2 : a < n := hlt e1 he1 a ha
    have hb2 : b < n := hlt e2 he2 b hb
    have hab : a = b := by omega
    exact h12 a ha (hab ▸ hb)
  · intro l hl
    rcases List.mem_map.mp hl with ⟨p, hp, rfl⟩
    rcases List.mem_filterMap.mp hp with ⟨e, he, hfe⟩
    rw [hf e p hfe]
    exact qpos_nodup (hnd e he) (hlt e he)

/-- Index-entry positions never meet FullState-entry positions. -/
theorem cross_disjoint {n : Nat} {states : List QubitInitialState}
    (hdis : List.Pairwise (fun e1 e2 => ∀ a ∈ e1.1, a ∉ e2.1) states)
    (hlt : ∀ e ∈ states, ∀ q ∈ e.1, q < n) :
    ∀ u ∈ posAll n ((indexEntries states).map Prod.fst),
      u ∉ posAll n ((fullEntries states).map Prod.fst) := by
  intro u hui huf
  rcases mem_posAll.mp hui with ⟨l1, hl1, hu1⟩
  rcases List.mem_map.mp hl1 with ⟨r, hr, rfl⟩
  rcases mem_posAll.mp huf with ⟨l2, hl2, hu2⟩
  rcases List.mem_map.mp hl2 with ⟨p, hp, rfl⟩
  have hrs := indexEntries_src hr
  have hps := fullEntries_src hp
  have hne : ((r.1 : List Nat), InitialState.Index r.2)
      ≠ (p.1, InitialState.FullState p.2) := by
    intro hc
    have h2 := congrArg Prod.snd hc
    simp at h2
  have hsymm : Symmetric
      (fun e1 e2 : QubitInitialState => ∀ a ∈ e1.1, a ∉ e2.1) := by
    intro a b h x hx hxa
    exact h x hxa hx
  have hd := List.Pairwise.forall hsymm hdis hrs hps hne
  rcases List.mem_map.mp hu1 with ⟨a, ha, hau⟩
  rcases List.mem_map.mp hu2 with ⟨b, hb, hbu⟩
  have ha2 : a < n := hlt _ hrs a ha
  have hb2 : b < n := hlt _ hps b hb
  have hab : a = b := by omega
  exact hd a ha (hab ▸ hb)

/-- A write loop over distinct addresses leaves untouched cells alone. -/
theorem foldl_set_getD_miss {α : Type} (w : Nat → Nat) (v : Nat → α)
    (d : α) : ∀ (M : Nat) (base : List α) (g : Nat),
    (∀ i, i < M → w i ≠ g) →
    ((List.range M).foldl (fun cv i => cv.set (w i) (v i)) base).getD g d
      = base.getD g d := by
  intro M
  induction M with
  | zero => intro base g _; rfl
  | succ K ih =>
    intro base g hmiss
    rw [List.range_succ, List.foldl_append, List.foldl_cons, List.foldl_nil,
      List.getD_eq_getElem?_getD,
      List.getElem?_set_ne (hmiss K (Nat.lt_succ_self K)),
      ← List.getD_eq_getElem?_getD]
    exact ih base g (fun i hi => hmiss i (Nat.lt_succ_of_lt hi))

/-- A write loop stores the value of the unique combination addressing a
cell. -/
theorem foldl_set_getD_hit {α : Type} (w : Nat → Nat) (v : Nat → α)
    (d : α) : ∀ (M : Nat) (base : List α) (g i0 : Nat),
    i0 < M → w i0 = g → g < base.length →
    (∀ i, i < M → w i = g → i = i0) →
    ((List.range M).foldl (fun cv i => cv.set (w i) (v i)) base).getD g d
      = v i0 := by
  intro M
  induction M with
  | zero =>
    intro base g i0 h
    exact absurd h (Nat.not_lt_zero i0)
  | succ K ih =>
    intro base g i0 hi0 hw hg huniq
    rw [List.range_succ, List.foldl_append, List.foldl_cons, List.foldl_nil]
    by_cases hK : i0 = K
    · rw [hK] at hw ⊢
      have hlen2 : w K
          < ((List.range K).foldl (fun cv i => cv.set (w i) (v i))
              base).length := by
        rw [foldl_set_length]
        rw [hw]
        exact hg
      rw [List.getD_eq_getElem?_getD, ← hw, List.getElem?_set_self hlen2,
        Option.getD_some]
    · have hKne : w K ≠ g := fun hc => hK ((huniq K (Nat.lt_succ_self K) hc).symm ▸ rfl)
      rw [List.getD_eq_getElem?_getD, List.getElem?_set_ne hKne,
        ← List.getD_eq_getElem?_getD]
      exact ih base g i0 (by omega) hw hg
        (fun i hi hwi => huniq i (by omega) hwi)

theorem getD_replicate_zero (L g : Nat) :
    (List.replicate L (0 : Cplx)).getD g 0 = 0 := by
  rw [List.getD_eq_getElem?_getD, List.getElem?_replicate]
  split <;> rfl

/-- The built amplitude vector, expressed through the placement sums: each
combination i writes the product amplitude at its scattered slices plus the
Index template. -/
theorem new_from_initial_states_state (n : Nat)
    (states : List QubitInitialState) :
    (new_from_initial_states n states).state
      = (List.range (2 ^ widthF (fullEntries states))).foldl
          (fun cv i => cv.set
            (placeSum (widened_n n states) (slicesF (fullEntries states) 0 i)
              + placeSum (widened_n n states) (indexEntries states))
            (prodF (fullEntries states) 0 i 1))
          (List.replicate (2 ^ widened_n n states) 0) := by
  show (List.range (1 <<< n_fullindices states)).foldl
      (fun cv i =>
        let r := init_entry_fold (widened_n n states) i states
        cv.set (r.1 + init_template (widened_n n states) states) r.2.2)
      (List.replicate (1 <<< widened_n n states) 0) = _
  rw [one_shiftLeft_eq, one_shiftLeft_eq, n_fullindices_eq]
  have hfun : (fun (cv : List Cplx) i =>
      let r := init_entry_fold (widened_n n states) i states
      cv.set (r.1 + init_template (widened_n n states) states) r.2.2)
      = (fun cv i => cv.set
          (placeSum (widened_n n states) (slicesF (fullEntries states) 0 i)
            + placeSum (widened_n n states) (indexEntries states))
          (prodF (fullEntries states) 0 i 1)) := by
    funext cv i
    simp only [init_entry_fold_eq, foldl_initStep, Nat.zero_add,
      init_template_eq]
  rw [hfun]

/-- Each cell of the written vector holds the spec-side tensor amplitude,
for pairwise-disjoint duplicate-free index sets bounded by the width. -/
theorem written_vec_getD (n2 : Nat) (states : List QubitInitialState)
    (hdis : List.Pairwise (fun e1 e2 => ∀ a ∈ e1.1, a ∉ e2.1) states)
    (hnd : ∀ e ∈ states, e.1.Nodup)
    (hlt : ∀ e ∈ states, ∀ q ∈ e.1, q < n2)
    (g : Nat) (hg : g < 2 ^ n2) :
    ((List.range (2 ^ widthF (fullEntries states))).foldl
        (fun cv i => cv.set
          (placeSum n2 (slicesF (fullEntries states) 0 i)
            + placeSum n2 (indexEntries states))
          (prodF (fullEntries states) 0 i 1))
        (List.replicate (2 ^ n2) (0 : Cplx))).getD g 0
      = tensorAmp n2 states g := by
  have hf_full : ∀ (e : QubitInitialState) (p : List Nat × List Cplx),
      (match e.2 with
        | InitialState.FullState vals => some (e.1, vals)
        | InitialState.Index _ => none) = some p → p.1 = e.1 := by
    intro e p hfe
    rcases e with ⟨idxs, st⟩
    cases st with
    | FullState vals =>
      have h2 : some ((idxs, vals) : List Nat × List Cplx) = some p := hfe
      rw [← Option.some.inj h2]
    | Index v =>
      have h2 : (none : Option (List Nat × List Cplx)) = some p := hfe
      exact absurd h2 (by simp)
  have hf_idx : ∀ (e : QubitInitialState) (p : List Nat × Nat),
      (match e.2 with
        | InitialState.Index v => some (e.1, v)
        | InitialState.FullState _ => none) = some p → p.1 = e.1 := by
    intro e p hfe
    rcases e with ⟨idxs, st⟩
    cases st with
    | FullState vals =>
      have h2 : (none : Option (List Nat × Nat)) = some p := hfe
      exact absurd h2 (by simp)
    | Index v =>
      have h2 : some ((idxs, v) : List Nat × Nat) = some p := hfe
      rw [← Option.some.inj h2]
  have hG_F : GoodPos n2 ((fullEntries states).map Prod.fst) :=
    GoodPos_of_pairwise hdis hnd hlt _ hf_full
  have hG_I : GoodPos n2 ((indexEntries states).map Prod.fst) :=
    GoodPos_of_pairwise hdis hnd hlt _ hf_idx
  have hcross := cross_disjoint hdis hlt
  have htv : ∀ u ∈ posAll n2 ((fullEntries states).map Prod.fst),
      (placeSum n2 (indexEntries states)).testBit u = false := by
    intro u hu
    apply placeSum_vanish hG_I
    intro hc
    exact hcross u hc hu
  have h0 : ∀ u2 ∈ posAll n2 ((indexEntries states).map Prod.fst),
      (0 : Nat).testBit u2 = false := fun u2 _ => Nat.zero_testBit u2
  have hposF : ∀ u ∈ posAll n2 ((fullEntries states).map Prod.fst),
      ∃ q2, q2 ∈ (states.map Prod.fst).flatten ∧ q2 < n2
        ∧ u = n2 - 1 - q2 := by
    intro u hu
    rcases mem_posAll.mp hu with ⟨l, hl, hul⟩
    rcases List.mem_map.mp hl with ⟨p, hp, rfl⟩
    rcases List.mem_map.mp hul with ⟨q2, hq2, hqu⟩
    have hsrc := fullEntries_src hp
    exact ⟨q2, List.mem_flatten.mpr ⟨p.1,
        List.mem_map.mpr ⟨(p.1, InitialState.FullState p.2), hsrc, rfl⟩, hq2⟩,
      hlt _ hsrc q2 hq2, hqu.symm⟩
  have hposI : ∀ u ∈ posAll n2 ((indexEntries states).map Prod.fst),
      ∃ q2, q2 ∈ (states.map Prod.fst).flatten ∧ q2 < n2
        ∧ u = n2 - 1 - q2 := by
    intro u hu
    rcases mem_posAll.mp hu with ⟨l, hl, hul⟩
    rcases List.mem_map.mp hl with ⟨p, hp, rfl⟩
    rcases List.mem_map.mp hul with ⟨q2, hq2, hqu⟩
    have hsrc := indexEntries_src hp
    exact ⟨q2, List.mem_flatten.mpr ⟨p.1,
        List.mem_map.mpr ⟨(p.1, InitialState.Index p.2), hsrc, rfl⟩, hq2⟩,
      hlt _ hsrc q2 hq2, hqu.symm⟩
  have hdecl : ∀ e ∈ states, ∀ q2 ∈ e.1,
      (n2 - 1 - q2) ∈ posAll n2 ((indexEntries states).map Prod.fst) ∨
        (n2 - 1 - q2) ∈ posAll n2 ((fullEntries states).map Prod.fst) := by
    intro e he q2 hq2
    rcases e with ⟨idxs, st⟩
    cases st with
    | FullState vals =>
      right
      apply mem_posAll.mpr
      refine ⟨idxs, ?_, List.mem_map.mpr ⟨q2, hq2, rfl⟩⟩
      apply List.mem_map.mpr
      refine ⟨(idxs, vals), ?_, rfl⟩
      exact List.mem_filterMap.mpr
        ⟨(idxs, InitialState.FullState vals), he, rfl⟩
    | Index v =>
      left
      apply mem_posAll.mpr
      refine ⟨idxs, ?_, List.mem_map.mpr ⟨q2, hq2, rfl⟩⟩
      apply List.mem_map.mpr
      refine ⟨(idxs, v), ?_, rfl⟩
      exact List.mem_filterMap.mpr ⟨(idxs, InitialState.Index v), he, rfl⟩
  have hGsl : ∀ i,
      GoodPos n2 ((slicesF (fullEntries states) 0 i).map Prod.fst) := by
    intro i
    rw [slicesF_fst]
    exact hG_F
  have hand1 : ∀ i, placeSum n2 (slicesF (fullEntries states) 0 i)
      &&& placeSum n2 (indexEntries states) = 0 := by
    intro i
    apply and_eq_zero_of_support
      (P := fun u => u ∈ posAll n2 ((fullEntries states).map Prod.fst))
    · intro u hu
      have h2 := placeSum_support _ (hGsl i) u hu
      rwa [slicesF_fst] at h2
    · exact htv
  by_cases hC : (∀ q < n2, q ∉ (states.map Prod.fst).flatten →
        g.testBit (n2 - 1 - q) = false) ∧
      (∀ e ∈ indexEntries states, ∀ j < e.1.length,
        g.testBit (n2 - 1 - e.1.getD j 0) = e.2.testBit j)
  · have hT_h1 : ∀ u, u ∉ posAll n2 ((fullEntries states).map Prod.fst) →
        (placeSum n2 (indexEntries states)).testBit u = g.testBit u := by
      intro u hu
      by_cases hui : u ∈ posAll n2 ((indexEntries states).map Prod.fst)
      · rcases mem_posAll.mp hui with ⟨l, hl, hul⟩
        rcases List.mem_map.mp hl with ⟨r, hr, rfl⟩
        rcases List.getElem_of_mem hul with ⟨j, hj, hju⟩
        have hread := placeSum_read _ hG_I 0 h0 r hr j hj
        rw [Nat.zero_add, List.get_eq_getElem, hju] at hread
        rw [hread]
        have hjlen : j < r.1.length := by
          rw [length_qpos] at hj
          exact hj
        have hB := hC.2 r hr j hjlen
        have hul2 : u = n2 - 1 - r.1.getD j 0 := by
          rw [← hju, List.getD_eq_getElem r.1 0 hjlen]
          simp [qpos]
        rw [hul2]
        exact hB.symm
      · rw [placeSum_vanish hG_I hui]
        by_cases hun : u < n2
        · have hq2 : n2 - 1 - u < n2 := by omega
          have hnotflat : (n2 - 1 - u)
              ∉ (states.map Prod.fst).flatten := by
            intro hc
            rcases List.mem_flatten.mp hc with ⟨l, hl, hml⟩
            rcases List.mem_map.mp hl with ⟨e, he, rfl⟩
            have hd := hdecl e he _ hml
            rw [show n2 - 1 - (n2 - 1 - u) = u from by omega] at hd
            rcases hd with hd | hd
            · exact hui hd
            · exact hu hd
          have hA := hC.1 (n2 - 1 - u) hq2 hnotflat
          rw [show n2 - 1 - (n2 - 1 - u) = u from by omega] at hA
          exact hA.symm
        · exact (Nat.testBit_lt_two_pow (Nat.lt_of_lt_of_le hg
            (Nat.pow_le_pow_right (by omega) (by omega)))).symm
    have hw_i0 : placeSum n2 (slicesF (fullEntries states) 0
          (readF n2 (fullEntries states) g))
        + placeSum n2 (indexEntries states) = g := by
      rw [slicesF_readF, Nat.add_comm]
      exact placeSum_gather_add _ hG_F _ g htv hT_h1
    have huniq : ∀ i, i < 2 ^ widthF (fullEntries states) →
        placeSum n2 (slicesF (fullEntries states) 0 i)
          + placeSum n2 (indexEntries states) = g →
        i = readF n2 (fullEntries states) g := by
      intro i hi hwi
      have hdec := readF_decode _ hG_F _ htv i
      rw [Nat.mod_eq_of_lt hi] at hdec
      have harr : placeSum n2 (indexEntries states)
          + placeSum n2 (slicesF (fullEntries states) 0 i) = g := by
        omega
      rw [harr] at hdec
      exact hdec.symm
    have hfin := foldl_set_getD_hit
      (fun i => placeSum n2 (slicesF (fullEntries states) 0 i)
        + placeSum n2 (indexEntries states))
      (fun i => prodF (fullEntries states) 0 i 1) 0
      (2 ^ widthF (fullEntries states))
      (List.replicate (2 ^ n2) (0 : Cplx)) g
      (readF n2 (fullEntries states) g)
      (readF_lt _ g) hw_i0 (by rw [List.length_replicate]; exact hg) huniq
    have hval : prodF (fullEntries states) 0
        (readF n2 (fullEntries states) g) 1 = tensorAmp n2 states g := by
      have hif : tensorAmp n2 states g = (fullEntries states).foldl
          (fun a e => a * e.2.getD (gather (qpos n2 e.1) g) 0) 1 := by
        simp only [tensorAmp]
        rw [if_pos hC]
      rw [hif]
      exact @prodF_readF n2 (fullEntries states) g 1
    exact hfin.trans hval
  · have hmiss : ∀ i, i < 2 ^ widthF (fullEntries states) →
        placeSum n2 (slicesF (fullEntries states) 0 i)
          + placeSum n2 (indexEntries states) ≠ g := by
      intro i hi hwi
      apply hC
      constructor
      · intro q hq hndq
        have hu1 : (n2 - 1 - q)
            ∉ posAll n2 ((indexEntries states).map Prod.fst) := by
          intro hc
          rcases hposI _ hc with ⟨q2, hq2f, hq2n, hqe⟩
          have hqq : q = q2 := by omega
          exact hndq (hqq.symm ▸ hq2f)
        have hu2 : (n2 - 1 - q)
            ∉ posAll n2 ((fullEntries states).map Prod.fst) := by
          intro hc
          rcases hposF _ hc with ⟨q2, hq2f, hq2n, hqe⟩
          have hqq : q = q2 := by omega
          exact hndq (hqq.symm ▸ hq2f)
        rw [← hwi, testBit_add_of_and_eq_zero (hand1 i),
          placeSum_vanish (hGsl i) (by rw [slicesF_fst]; exact hu2),
          placeSum_vanish hG_I hu1]
        rfl
      · intro r hr j hjlen
        have hj : j < (qpos n2 r.1).length := by
          rw [length_qpos]
          exact hjlen
        have hread := placeSum_read _ hG_I 0 h0 r hr j hj
        rw [Nat.zero_add, List.get_eq_getElem] at hread
        have hul2 : (qpos n2 r.1)[j] = n2 - 1 - r.1.getD j 0 := by
          rw [List.getD_eq_getElem r.1 0 hjlen]
          simp [qpos]
        have humem : (qpos n2 r.1)[j]
            ∈ posAll n2 ((indexEntries states).map Prod.fst) :=
          mem_posAll.mpr ⟨r.1, List.mem_map.mpr ⟨r, hr, rfl⟩,
            List.getElem_mem hj⟩
        rw [← hwi, ← hul2, testBit_add_of_and_eq_zero (hand1 i),
          placeSum_vanish (hGsl i)
            (by rw [slicesF_fst]; exact fun hc => hcross _ humem hc),
          Bool.false_or]
        exact hread
    have hfin := foldl_set_getD_miss
      (fun i => placeSum n2 (slicesF (fullEntries states) 0 i)
        + placeSum n2 (indexEntries states))
      (fun i => prodF (fullEntries states) 0 i 1) 0
      (2 ^ widthF (fullEntries states))
      (List.replicate (2 ^ n2) (0 : Cplx)) g hmiss
    have hz : tensorAmp n2 states g = 0 := by
      simp only [tensorAmp]
      rw [if_neg hC]
    rw [hz]
    exact hfin.trans (getD_replicate_zero _ g)

/-- C1: for initial-state entries whose index sets are pairwise disjoint
(and, being sets, duplicate-free), the built amplitude vector equals the
tensor product of the declared sub-states over their subsets, with every
undeclared index fixed at basis state 0: cell g holds the product over
FullState entries of the amplitude selected by g's bits at that entry's
positions, provided g matches all Index entries and is 0 at undeclared
positions, and 0 otherwise.  In particular the empty entry list gives
amplitude 1 at index 0 and 0 at every other of the 2 to the n positions. -/
theorem C1_initializer_tensor_product (n : Nat)
    (states : List QubitInitialState)
    (hdis : List.Pairwise (fun e1 e2 => ∀ a ∈ e1.1, a ∉ e2.1) states)
    (hnd : ∀ e ∈ states, e.1.Nodup) :
    (∀ g, g < 2 ^ widened_n n states →
      (new_from_initial_states n states).state.getD g 0
        = tensorAmp (widened_n n states) states g) ∧
    (new_from_initial_states n []).state
      = (List.replicate (2 ^ n) (0 : Cplx)).set 0 1 := by
  constructor
  · intro g hg
    rw [new_from_initial_states_state]
    exact written_vec_getD (widened_n n states) states hdis hnd
      (widened_lt n states) g hg
  · rw [← one_shiftLeft_eq]
    rfl

/-- Concrete declaration: qubit 0 carries the sub-state (2, 3), qubit 1 the
classical index 1. -/
def W1states : List QubitInitialState :=
  [([0], InitialState.FullState [⟨2, 0⟩, ⟨3, 0⟩]),
   ([1], InitialState.Index 1)]

/-- Witness for C1: on the concrete two-entry declaration the hypotheses
hold, index 1 is in range, and the theorem yields the cell value, which
evaluates to the tensor amplitude 2. -/
theorem C1_initializer_tensor_product_witness :
    List.Pairwise (fun e1 e2 => ∀ a ∈ e1.1, a ∉ e2.1) W1states ∧
    (∀ e ∈ W1states, e.1.Nodup) ∧
    (1 : Nat) < 2 ^ widened_n 2 W1states ∧
    ((new_from_initial_states 2 W1states).state.getD 1 0
      = tensorAmp (widened_n 2 W1states) W1states 1) ∧
    tensorAmp (widened_n 2 W1states) W1states 1 = ⟨2, 0⟩ :=
  ⟨by decide, by decide, by decide,
    (C1_initializer_tensor_product 2 W1states (by decide) (by decide)).1 1
      (by decide),
    by decide⟩

/-- Counterexample to C4 as stated: an operation-free terminal handle
whose frontier spans two qubits makes make_circuit_matrix with n = 1
return 2 x 4 rows, not the 2 x 2 identity. -/
theorem C4_counterexample_wide_frontier :
    ¬(make_circuit_matrix trivialAK trivialMK 1 qWide false =
      idMatrix 1) := by decide

end QIP
